import Mathlib

/-!
Shallow embedding of the `rikulife` artificial-life simulation
(`src/world.rs`, `src/agent.rs`, `src/brain.rs`), together with theorems
settling the specification claims about it.

Modelling conventions:
- Rust `u32`/`usize` values are embedded as `Nat`; `u32::saturating_sub`
  is `Nat` truncated subtraction, which has the same semantics.
- `f32` values that only ever hold exact small quantities (flags 0/1,
  colors in the unit interval) are embedded as `ℚ`.  For `f32` values
  whose comparison can be degenerate (the brain output decoded by
  `Action::from_output`) we embed a value as `Option ℚ`: `some q` is an
  ordinary non-NaN value and `none` is NaN, so that `partial_cmp`
  returning `None` (and the subsequent `unwrap` panic) is representable.
- The seeded `StdRng` is embedded as a deterministic stream of natural
  draws together with a cursor; each primitive random call consumes
  successive draws.  Every property proved here depends only on the
  stream being a deterministic function of the seed, not on the
  distribution of the draws.
- The brain (`Brain::forward`) is a pure function of its weights and the
  perception vector; it is embedded as an explicit parameter
  `brains : AgentId → List ℚ → List ℚ` giving each agent's forward
  function.  No claim below depends on the numeric content of the
  network, only on its determinism.
-/

namespace Rikulife

/-! ### Constants, `src/world.rs` lines 13-34 and `src/brain.rs` lines 6-22 -/

def WIDTH : Nat := 50
def HEIGHT : Nat := 50
def MAX_FOODS : Nat := 2500
def MAX_ENERGY : Nat := 100
def INIT_ENERGY : Nat := MAX_ENERGY / 10 * 5
def CHILD_INIT_ENERGY : Nat := MAX_ENERGY / 10 * 5
def REPRODUCE_COST : Nat := MAX_ENERGY / 10 * 7
def FOOD_SPAWN_COUNT_SUMMER : Nat := 250
def FOOD_SPAWN_COUNT_WINTER : Nat := 100
def FOOD_ENERGY : Nat := 60
def INTERACT_COST : Nat := 10
def ATTACK_AMOUNT : Int := -20
def HEAL_AMOUNT : Nat := 8

def INPUT_FIELD_LENGTH : Nat := 7
def INPUT_FIELD_SIZE : Nat := INPUT_FIELD_LENGTH * INPUT_FIELD_LENGTH
def INPUT_CELL_TYPE_SIZE : Nat := 3
def RGB_COLOR_SIZE : Nat := 3
def INPUT_SIZE : Nat := INPUT_FIELD_SIZE * (INPUT_CELL_TYPE_SIZE + RGB_COLOR_SIZE)
def OUTPUT_ACTION_SIZE : Nat := 4 + 1 + 2
def OUTPUT_SIZE : Nat := OUTPUT_ACTION_SIZE + RGB_COLOR_SIZE

/-! ### Basic data types -/

abbrev AgentId := Nat

/-- Grid coordinate, `src/world.rs` lines 36-40. -/
structure Position where
  x : Nat
  y : Nat
deriving DecidableEq

/-- A color is three `f32` channels, `src/agent.rs` line 10; embedded as exact
rationals. -/
structure Color where
  r : ℚ
  g : ℚ
  b : ℚ
deriving DecidableEq

/-- The seven actions, `src/agent.rs` lines 108-117. -/
inductive Action where
  | Up
  | Down
  | Left
  | Right
  | Stay
  | Attack
  | Heal
deriving DecidableEq

/-- An `f32` as seen by `partial_cmp`: `some q` is an ordinary value with exact
numeric value `q`, `none` is NaN (incomparable to everything). -/
abbrev F32 := Option ℚ

/-- Embeds `f32::partial_cmp`: `None` as soon as either side is NaN, otherwise
the total numeric order. -/
def partialCmp (a b : F32) : Option Ordering :=
  match a, b with
  | some x, some y => some (compare x y)
  | _, _ => none

/-- One step of `Iterator::max_by` with the comparator
`|(_, a), (_, b)| a.partial_cmp(b).unwrap()` of `src/agent.rs` line 127.
`max_by` keeps the accumulator only on `Greater`, so later elements win ties;
`unwrap` of an incomparable pair is a panic, embedded as `Except.error`. -/
def maxByStep (acc x : Nat × F32) : Except Unit (Nat × F32) :=
  match partialCmp acc.2 x.2 with
  | none => Except.error ()
  | some Ordering.gt => Except.ok acc
  | some _ => Except.ok x

/-- `Iterator::max_by` folded over the remaining elements. -/
def maxByList (acc : Nat × F32) : List (Nat × F32) → Except Unit (Nat × F32)
  | [] => Except.ok acc
  | x :: rest =>
    match maxByStep acc x with
    | Except.error e => Except.error e
    | Except.ok next => maxByList next rest

/-- The `match index` arm of `Action::from_output`, `src/agent.rs`
lines 130-139. -/
def Action.indexToAction (index : Nat) : Action :=
  match index with
  | 0 => Action.Up
  | 1 => Action.Down
  | 2 => Action.Left
  | 3 => Action.Right
  | 4 => Action.Stay
  | 5 => Action.Attack
  | 6 => Action.Heal
  | _ => Action.Stay

/-- `Action::from_output`, `src/agent.rs` lines 121-140: argmax over the first
seven logits via `max_by`, with `unwrap_or((4, &0.0))` turning the empty case
into `Stay`.  An `unwrap` panic on an incomparable (NaN) pair is
`Except.error ()`. -/
def Action.from_output (output : List F32) : Except Unit Action :=
  match (output.take 7).enum with
  | [] => Except.ok (Action.indexToAction 4)
  | first :: rest =>
    match maxByList first rest with
    | Except.error e => Except.error e
    | Except.ok (index, _) => Except.ok (Action.indexToAction index)

/-- One step of `max_by` restricted to ordinary (non-NaN) values. -/
def maxByStepQ (acc x : Nat × ℚ) : Nat × ℚ :=
  match compare acc.2 x.2 with
  | Ordering.gt => acc
  | _ => x

/-- `Action::from_output` on a NaN-free output vector; agrees with
`Action.from_output` on such vectors (`from_output_total_agrees`) and is used
inside the world step, where the embedded brain outputs are exact rationals. -/
def Action.from_output_total (output : List ℚ) : Action :=
  match (output.take 7).enum with
  | [] => Action.indexToAction 4
  | first :: rest => Action.indexToAction (rest.foldl maxByStepQ first).1

theorem maxByList_map_some (acc : Nat × ℚ) (l : List (Nat × ℚ)) :
    maxByList (acc.1, some acc.2) (l.map (fun p => (p.1, some p.2))) =
      Except.ok ((l.foldl maxByStepQ acc).1, some (l.foldl maxByStepQ acc).2) := by
  induction l generalizing acc with
  | nil => rfl
  | cons x rest ih =>
    simp only [List.map_cons, List.foldl_cons, maxByList, maxByStep, partialCmp]
    cases hc : compare acc.2 x.2 <;>
      simp only [maxByStepQ, hc] <;> exact ih _

theorem enumFrom_map_some (n : Nat) (l : List ℚ) :
    (List.map some l).enumFrom n = (l.enumFrom n).map (fun p => (p.1, some p.2)) := by
  induction l generalizing n with
  | nil => rfl
  | cons q qs ih => simp [List.enumFrom, ih]

/-- On a NaN-free output the panicking decoder agrees with the total one. -/
theorem from_output_total_agrees (output : List ℚ) :
    Action.from_output (output.map some) =
      Except.ok (Action.from_output_total output) := by
  unfold Action.from_output Action.from_output_total
  rw [← List.map_take]
  rcases h : output.take 7 with _ | ⟨q, qs⟩
  · simp [List.enum]
  · have henum : (List.map some (q :: qs)).enum =
        (q :: qs).enum.map (fun p => (p.1, some p.2)) := by
      simp [List.enum, enumFrom_map_some]
    rw [henum]
    rcases he : (q :: qs).enum with _ | ⟨first, rest⟩
    · simp [List.enum_cons] at he
    · simp only [List.map_cons]
      rw [show (first.1, some first.2) = ((fun p : Nat × ℚ => (p.1, some p.2)) first) from rfl]
      rw [maxByList_map_some]

/-! ### Random source

The seeded `StdRng` (`src/world.rs` line 50) is a deterministic stream fixed by
the seed.  It is embedded as a stream of natural draws with a cursor; each
primitive random call (`random_range`, `random::<f32>`, one brain-genome draw)
consumes one draw.  All claims proved below depend only on this determinism,
never on the concrete values drawn. -/

structure Rng where
  stream : Nat → Nat
  pos : Nat

def Rng.next (r : Rng) : Nat × Rng :=
  (r.stream r.pos, { stream := r.stream, pos := r.pos + 1 })

/-- Models `rng.random_range(0..n)`: a draw reduced to the range. -/
def Rng.randRange (r : Rng) (n : Nat) : Nat × Rng :=
  let (v, r2) := r.next
  (v % n, r2)

/-- Models `rng.random::<f32>()` (uniform in the unit interval): a draw reduced
to 24 bits of fraction. -/
def Rng.randUnit (r : Rng) : ℚ × Rng :=
  let (v, r2) := r.next
  (((v % 2 ^ 24 : Nat) : ℚ) / 2 ^ 24, r2)

/-! ### Agent, `src/agent.rs` -/

/-- Per-individual state, `src/agent.rs` lines 12-29.  The owned `Brain` value
is not part of the embedded record: its forward function enters the step as the
explicit `brains` parameter, and no claim below depends on its weights. -/
structure Agent where
  id : AgentId
  pos : Position
  energy : Nat
  max_energy : Nat
  generation : Nat
  color : Color
  last_action : Option Action
  age : Nat
  lifespan : Nat
deriving DecidableEq

/-- `Agent::new_random`, `src/agent.rs` lines 34-55.  The brain weights
(`random_matrix` twice) are drawn first; their numeric content is not part of
the embedding, so that consumption is collapsed into one draw.  Then the three
color channels and the lifespan are drawn, in the order of the struct
literal. -/
def Agent.new_random (id : AgentId) (pos : Position) (rng : Rng) : Agent × Rng :=
  let (_, rng) := rng.next
  let (c1, rng) := rng.randUnit
  let (c2, rng) := rng.randUnit
  let (c3, rng) := rng.randUnit
  let (lf, rng) := rng.randRange 200
  ({ id := id, pos := pos, energy := INIT_ENERGY, max_energy := MAX_ENERGY,
     generation := 1, color := { r := c1, g := c2, b := c3 },
     last_action := none, age := 0, lifespan := 500 + lf }, rng)

/-- Integer clamp, as `i32::clamp(lo, hi)`. -/
def clampI (lo hi x : Int) : Int := max lo (min hi x)

/-- `Agent::new_child`, `src/agent.rs` lines 61-99.  Draw order as in the
source: the mutated child brain (`spawn_child`, collapsed into one draw as the
weights are not embedded), then `diff = random_range(-5..=5)` for the body-size
mutation with `clamp(10, 500)`, then the fresh lifespan. -/
def Agent.new_child (parent : Agent) (new_id : AgentId) (new_pos : Position)
    (rng : Rng) : Agent × Rng :=
  let (_, rng) := rng.next
  let (d, rng) := rng.randRange 11
  let diff : Int := (d : Int) - 5
  let child_max_energy : Nat := (clampI 10 500 ((parent.max_energy : Int) + diff)).toNat
  let (lf, rng) := rng.randRange 200
  ({ id := new_id, pos := new_pos, energy := CHILD_INIT_ENERGY,
     max_energy := child_max_energy, generation := parent.generation + 1,
     color := parent.color, last_action := none,
     age := 0, lifespan := 500 + lf }, rng)

/-! ### World, `src/world.rs` -/

/-- The world state, `src/world.rs` lines 42-52.  `agents` is the
`HashMap<AgentId, Agent>` embedded as an association list whose list order is
the map's (unspecified) iteration order; `grid` and `foods` are the
`Vec<Vec<_>>` fields embedded as functions of the coordinate. -/
structure World where
  step : Nat
  agents : List (AgentId × Agent)
  grid : Position → Option AgentId
  foods : Position → Bool
  rng : Rng
  next_id : Nat

/-- Lookup in the agent registry (`self.agents.get(&id)`). -/
def lookupAgent (id : AgentId) : List (AgentId × Agent) → Option Agent
  | [] => none
  | (i, a) :: rest => if i = id then some a else lookupAgent id rest

/-- Point update of an association list at a key. -/
def updateEntries (id : AgentId) (f : Agent → Agent) :
    List (AgentId × Agent) → List (AgentId × Agent)
  | [] => []
  | (i, a) :: rest =>
    (if i = id then (i, f a) else (i, a)) :: updateEntries id f rest

/-- Point update of the agent registry (`self.agents.get_mut(&id)` followed by
a mutation of the entry). -/
def World.updateAgent (w : World) (id : AgentId) (f : Agent → Agent) : World :=
  { w with agents := updateEntries id f w.agents }

/-- `World::new`, `src/world.rs` lines 55-64, with the seed replaced by the
draw stream it determines. -/
def World.new (stream : Nat → Nat) : World :=
  { step := 0, agents := [], grid := fun _ => none, foods := fun _ => false,
    rng := { stream := stream, pos := 0 }, next_id := 0 }

/-- `World::add_agent`, `src/world.rs` lines 134-137: register in both the
grid and the registry.  `HashMap::insert` leaves the iteration position of the
new key unspecified; the embedding appends. -/
def World.add_agent (w : World) (agent : Agent) (pos : Position) : World :=
  { w with grid := fun p => if p = pos then some agent.id else w.grid p,
           agents := w.agents ++ [(agent.id, agent)] }

/-- `World::remove_agent`, `src/world.rs` lines 139-142.  The source unwraps
the registry entry; callers only pass live identifiers, and the embedding
leaves the world unchanged on a dead one. -/
def World.remove_agent (w : World) (id : AgentId) : World :=
  match lookupAgent id w.agents with
  | none => w
  | some agent =>
    { w with agents := w.agents.filter (fun p => p.1 ≠ id),
             grid := fun p => if p = agent.pos then none else w.grid p }

/-- `World::add_new_agent`, `src/world.rs` lines 118-132: `None` (and no
mutation) when the target cell is occupied. -/
def World.add_new_agent (w : World) (pos : Position) : Option World :=
  if (w.grid pos).isSome then none
  else
    let id := w.next_id
    let w := { w with next_id := w.next_id + 1 }
    let (agent, rng) := Agent.new_random id pos w.rng
    let w := { w with rng := rng }
    some (w.add_agent agent pos)

/-- Total food count, `src/world.rs` lines 149-153. -/
def World.foodCount (w : World) : Nat :=
  ((List.range HEIGHT).map
    (fun y => ((List.range WIDTH).filter (fun x => w.foods ⟨x, y⟩)).length)).sum

/-- Acceptance test of one food-spawn attempt, `src/world.rs` lines 188-202:
`rng.random::<f32>() < 0.2 * ((1 - dist/max_dist).max(0))^2` with
`dist = sqrt((x-25)^2 + (y-25)^2)` and `max_dist = sqrt(25^2 + 25^2)`.
The `f32` square roots are approximated by `Nat.sqrt` on values scaled by
`10^6`; exact `f32` rounding is not modelled, and no claim below depends on
which cells are accepted, only on the test being a deterministic function of
the draw and the cell. -/
def foodAccept (u : ℚ) (x y : Nat) : Bool :=
  let dx2 : Nat := ((x : Int) - 25).natAbs ^ 2
  let dy2 : Nat := ((y : Int) - 25).natAbs ^ 2
  let distScaled : Nat := Nat.sqrt ((dx2 + dy2) * 10 ^ 6)
  let maxDistScaled : Nat := Nat.sqrt ((25 ^ 2 + 25 ^ 2) * 10 ^ 6)
  let score : ℚ := max (1 - (distScaled : ℚ) / (maxDistScaled : ℚ)) 0
  decide (u < 1 / 5 * score ^ 2)

/-- `World::spawn_foods`, `src/world.rs` lines 147-206: skip entirely at the
global cap, otherwise a summer/winter budget of attempts, each drawing a
uniformly random cell, skipping cells that already have food, and otherwise
accepting with the center-biased probability. -/
def World.spawn_foods (w : World) : World :=
  if w.foodCount ≥ MAX_FOODS then w
  else
    let is_winter := (w.step / 2000) % 2 = 1
    let spawn_count := if is_winter then FOOD_SPAWN_COUNT_WINTER else FOOD_SPAWN_COUNT_SUMMER
    (List.range spawn_count).foldl
      (fun w _ =>
        let (xv, rng) := w.rng.randRange WIDTH
        let (yv, rng) := rng.randRange HEIGHT
        let w := { w with rng := rng }
        if w.foods ⟨xv, yv⟩ then w
        else
          let (u, rng) := w.rng.randUnit
          let w := { w with rng := rng }
          if foodAccept u xv yv then
            { w with foods := fun p => if p = (⟨xv, yv⟩ : Position) then true else w.foods p }
          else w)
      w

/-- Integers `lo, lo+1, ..., hi`, as the Rust range `lo..=hi`. -/
def rangeInt (lo hi : Int) : List Int :=
  (List.range (hi - lo + 1).toNat).map (fun i : Nat => lo + (i : Int))

/-- The `(dy, dx)` pairs of the nested `for dy in -1..=1 { for dx in -1..=1 }`
loops of `interact_area` and `try_reproduce` (the `dx == 0 && dy == 0` skip
stays in the loop bodies, as in the source). -/
def interactOffsets : List (Int × Int) :=
  (rangeInt (-1) 1).flatMap (fun dy => (rangeInt (-1) 1).map (fun dx => (dy, dx)))

/-- The neighbor cell reached from `c` by offset `(dy, dx)`: `none` when the
wall check `nx >= 0 && ny >= 0 && nx < WIDTH && ny < HEIGHT` fails. -/
def cellAt (c : Position) (d : Int × Int) : Option Position :=
  let nx : Int := (c.x : Int) + d.2
  let ny : Int := (c.y : Int) + d.1
  if 0 ≤ nx ∧ 0 ≤ ny ∧ nx < (WIDTH : Int) ∧ ny < (HEIGHT : Int) then
    some ⟨nx.toNat, ny.toNat⟩
  else none

/-- The body of the `interact_area` neighbor loop for one offset,
`src/world.rs` lines 347-383.  `c` is the actor's position read before the
loop; a negative `effect` is an attack (`unsigned_abs` damage capped by the
target's energy, with `(actual_damage as f32 * 0.8) as u32` absorbed back,
which equals `actual * 4 / 5` exactly for every `actual ≤ 20`), a non-negative
one a heal.  Stale grid identifiers are skipped by the `if let`. -/
def World.interactStep (w : World) (id : AgentId) (effect : Int) (c : Position)
    (d : Int × Int) : World :=
  if d.2 = 0 ∧ d.1 = 0 then w
  else
    match cellAt c d with
    | none => w
    | some p =>
      match w.grid p with
      | none => w
      | some target_id =>
        match lookupAgent target_id w.agents with
        | none => w
        | some target =>
          if effect < 0 then
            let damage := effect.natAbs
            let actual_damage := min target.energy damage
            let w := w.updateAgent target_id
              (fun a => { a with energy := a.energy - actual_damage })
            let absorb := actual_damage * 4 / 5
            w.updateAgent id
              (fun a => { a with energy := min (a.energy + absorb) a.max_energy })
          else
            w.updateAgent target_id
              (fun a => { a with energy := min (a.energy + effect.toNat) a.max_energy })

/-- `World::interact_area`, `src/world.rs` lines 339-384: deduct the fixed
interact cost from the actor, then act on the 8 neighboring cells.  The
source unwraps the actor's registry entry; the only caller passes a live
identifier, and the embedding leaves the world unchanged on a dead one. -/
def World.interact_area (w : World) (id : AgentId) (effect : Int) : World :=
  match lookupAgent id w.agents with
  | none => w
  | some me =>
    let c := me.pos
    let w := w.updateAgent id (fun a => { a with energy := a.energy - INTERACT_COST })
    interactOffsets.foldl (fun w d => w.interactStep id effect c d) w

/-- The per-direction offset `(dx, dy)` of `move_agent`, `src/world.rs` lines
295-301. -/
def moveOffset (action : Action) : Int × Int :=
  match action with
  | Action.Up => (0, -1)
  | Action.Down => (0, 1)
  | Action.Left => (-1, 0)
  | Action.Right => (1, 0)
  | _ => (0, 0)

/-- `World::move_agent`, `src/world.rs` lines 292-336: pay the movement cost
unconditionally, cancel on a wall or an occupied target, otherwise vacate the
old cell, occupy the new one, update the position, and consume any food there
with the gain capped at `max_energy`. -/
def World.move_agent (w : World) (id : AgentId) (action : Action) : World :=
  match lookupAgent id w.agents with
  | none => w
  | some agent =>
    let c := agent.pos
    let dxy : Int × Int := moveOffset action
    let w := w.updateAgent id (fun a => { a with energy := a.energy - 1 })
    let nx : Int := (c.x : Int) + dxy.1
    let ny : Int := (c.y : Int) + dxy.2
    if nx < 0 ∨ ny < 0 ∨ nx ≥ (WIDTH : Int) ∨ ny ≥ (HEIGHT : Int) then w
    else
      let np : Position := ⟨nx.toNat, ny.toNat⟩
      if w.grid np = none then
        let w := { w with grid := fun p => if p = c then none else w.grid p }
        let w := { w with grid := fun p => if p = np then some id else w.grid p }
        let w := w.updateAgent id (fun a => { a with pos := np })
        if w.foods np then
          let w := { w with foods := fun p => if p = np then false else w.foods p }
          w.updateAgent id
            (fun a => { a with energy := min (a.energy + FOOD_ENERGY) a.max_energy })
        else w
      else w

/-- `World::apply_action`, `src/world.rs` lines 266-289: set the new color,
pay the base metabolic cost (saturating), then dispatch on the action.  The
source panics on a missing actor; the only caller passes a live identifier,
and the embedding leaves the world unchanged then. -/
def World.apply_action (w : World) (id : AgentId) (action : Action)
    (new_color : Color) : World :=
  match lookupAgent id w.agents with
  | none => w
  | some _ =>
    let w := w.updateAgent id
      (fun a => { a with color := new_color, energy := a.energy - 1 })
    match action with
    | Action.Up | Action.Down | Action.Left | Action.Right => w.move_agent id action
    | Action.Stay => w
    | Action.Attack => w.interact_area id ATTACK_AMOUNT
    | Action.Heal => w.interact_area id (HEAL_AMOUNT : Int)

/-- The free-spot scan of `try_reproduce`, `src/world.rs` lines 407-429: the
in-bounds Chebyshev neighbors of `c` whose grid cell is empty, in loop
order. -/
def World.freeSpots (w : World) (c : Position) : List Position :=
  interactOffsets.foldl
    (fun acc d =>
      if d.2 = 0 ∧ d.1 = 0 then acc
      else
        match cellAt c d with
        | none => acc
        | some p => if w.grid p = none then acc ++ [p] else acc)
    []

/-- `World::try_reproduce`, `src/world.rs` lines 386-445: on
`energy >= max_energy` pay the reproduction cost (saturating, whether or not a
birth cell exists), then pick a uniformly random free neighbor cell, create
the child there and register it. -/
def World.try_reproduce (w : World) (id : AgentId) : World :=
  match lookupAgent id w.agents with
  | none => w
  | some agent =>
    if agent.energy ≥ agent.max_energy then
      let w := w.updateAgent id (fun a => { a with energy := a.energy - REPRODUCE_COST })
      let spots := w.freeSpots agent.pos
      if spots.isEmpty then w
      else
        let (idx, rng) := w.rng.randRange spots.length
        let w := { w with rng := rng }
        match spots.get? idx with
        | none => w
        | some child_pos =>
          match lookupAgent id w.agents with
          | none => w
          | some parent =>
            let new_id := w.next_id
            let w := { w with next_id := w.next_id + 1 }
            let (child, rng) := parent.new_child new_id child_pos w.rng
            let w := { w with rng := rng }
            w.add_agent child child_pos
    else w

/-- The raster-order `(dy, dx)` offsets of the perception field: `dy` outer
from `-3` to `3`, `dx` inner, `src/world.rs` lines 220-221. -/
def inputOffsets : List (Int × Int) :=
  (rangeInt (-(INPUT_FIELD_LENGTH / 2 : Nat) : Int) ((INPUT_FIELD_LENGTH / 2 : Nat) : Int)).flatMap
    (fun dy =>
      (rangeInt (-(INPUT_FIELD_LENGTH / 2 : Nat) : Int) ((INPUT_FIELD_LENGTH / 2 : Nat) : Int)).map
        (fun dx => (dy, dx)))

/-- The six scalars pushed for one perception cell, `src/world.rs` lines
225-255: wall flag, food flag, other-agent flag, and the occupant's color
channels (zero when there is no occupant, the occupant is the actor itself,
or the grid identifier is stale). -/
def World.inputCell (w : World) (id : AgentId) (c : Position) (d : Int × Int) : List ℚ :=
  let nx : Int := (c.x : Int) + d.2
  let ny : Int := (c.y : Int) + d.1
  if nx < 0 ∨ ny < 0 ∨ nx ≥ (WIDTH : Int) ∨ ny ≥ (HEIGHT : Int) then
    [1, 0, 0, 0, 0, 0]
  else
    let p : Position := ⟨nx.toNat, ny.toNat⟩
    let food : ℚ := if w.foods p then 1 else 0
    match w.grid p with
    | some target_id =>
      if target_id ≠ id then
        match lookupAgent target_id w.agents with
        | some target => [0, food, 1, target.color.r, target.color.g, target.color.b]
        | none => [0, food, 1, 0, 0, 0]
      else [0, food, 0, 0, 0, 0]
    | none => [0, food, 0, 0, 0, 0]

/-- `World::get_input`, `src/world.rs` lines 209-263: the 294-entry perception
vector over the 7×7 neighborhood in raster order.  The source panics
(`expect`) on a missing agent; the only caller passes live identifiers, and
the embedding returns the empty vector then. -/
def World.get_input (w : World) (id : AgentId) : List ℚ :=
  match lookupAgent id w.agents with
  | none => []
  | some agent => inputOffsets.flatMap (fun d => w.inputCell id agent.pos d)

/-- Stable insertion by energy key: insert before the first element with a
key not smaller, so that equal keys keep their original relative order.  Any
stable sort computes the same list as `Vec::sort_by_key` (which is stable),
so this embeds `agent_ids.sort_by_key(|id| self.agents[id].energy)` of
`src/world.rs` line 83. -/
def insertByEnergy (energyOf : AgentId → Nat) (x : AgentId) :
    List AgentId → List AgentId
  | [] => [x]
  | y :: ys =>
    if energyOf x ≤ energyOf y then x :: y :: ys else y :: insertByEnergy energyOf x ys

def sortByEnergy (energyOf : AgentId → Nat) : List AgentId → List AgentId
  | [] => []
  | x :: xs => insertByEnergy energyOf x (sortByEnergy energyOf xs)

/-- One scheduled agent turn, the body of the `for id in agent_ids` loop of
`World::step`, `src/world.rs` lines 85-113: perceive, run the brain, decode
action and color, record the action, age (forcing energy to 0 at the
lifespan), apply the action, attempt reproduction.  No agent is ever removed
mid-tick, so the `none` branch is unreachable from `stepWorld`. -/
def World.processTurn (brains : AgentId → List ℚ → List ℚ) (w : World)
    (id : AgentId) : World :=
  match lookupAgent id w.agents with
  | none => w
  | some _ =>
    let input := w.get_input id
    let output := brains id input
    let action := Action.from_output_total output
    let r := max 0 (min 1 (output.getD 7 0))
    let g := max 0 (min 1 (output.getD 8 0))
    let b := max 0 (min 1 (output.getD 9 0))
    let w := w.updateAgent id (fun a =>
      let a := { a with last_action := some action, age := a.age + 1 }
      if a.age ≥ a.lifespan then { a with energy := 0 } else a)
    let w := w.apply_action id action { r := r, g := g, b := b }
    w.try_reproduce id

/-- `World::step`, `src/world.rs` lines 66-114: advance the counter, cull the
agents whose energy is 0, regenerate food, fix the tick's processing order
(ascending current energy, ties in registry iteration order), then run each
scheduled turn. -/
def World.stepWorld (brains : AgentId → List ℚ → List ℚ) (w : World) : World :=
  let w := { w with step := w.step + 1 }
  let dead_ids := (w.agents.filter (fun p => p.2.energy = 0)).map (fun p => p.1)
  let w := dead_ids.foldl (fun w id => w.remove_agent id) w
  let w := w.spawn_foods
  let agent_ids := sortByEnergy
    (fun id => ((lookupAgent id w.agents).map (fun a => a.energy)).getD 0)
    (w.agents.map (fun p => p.1))
  agent_ids.foldl (fun w id => w.processTurn brains id) w

/-! ### Concrete fixtures used by witnesses and counterexamples -/

/-- The all-zeros draw stream. -/
def zeroStream : Nat → Nat := fun _ => 0

/-- The all-ones draw stream. -/
def oneStream : Nat → Nat := fun _ => 1

def rng0 : Rng := { stream := zeroStream, pos := 0 }

/-- A parent agent whose body size has drifted down to 50 over generations
(each generation moves `max_energy` by at most 5 inside `clamp(10, 500)`, so
such agents arise from genesis agents of `max_energy` 100). -/
def driftedParent : Agent :=
  { id := 0, pos := ⟨7, 7⟩, energy := 50, max_energy := 50, generation := 11,
    color := { r := 0, g := 0, b := 0 }, last_action := none,
    age := 0, lifespan := 600 }

/-! ### Claim theorems -/

/-- C3: the spec claims the fixed child initial energy equals the fixed
reproduction cost paid by the parent in `try_reproduce`.  In the code
(`src/world.rs` lines 19-20) `CHILD_INIT_ENERGY = 100/10*5 = 50` while
`REPRODUCE_COST = 100/10*7 = 70`; every child starts with 50 energy although
its parent paid 70, contradicting both the spec and the code's own comment at
`src/agent.rs` line 85 (the child's initial energy "made equal to the parent's
cost of 50 for an equal exchange"). -/
theorem child_init_energy_ne_reproduce_cost (parent : Agent) (new_id : AgentId)
    (new_pos : Position) (rng : Rng) :
    (parent.new_child new_id new_pos rng).1.energy = CHILD_INIT_ENERGY ∧
      CHILD_INIT_ENERGY = 50 ∧ REPRODUCE_COST = 70 ∧
      CHILD_INIT_ENERGY ≠ REPRODUCE_COST := by
  refine ⟨rfl, rfl, rfl, ?_⟩
  decide

/-- C2: the spec claims `energy ≤ max_energy` holds after every operation,
child creation included.  `Agent::new_child` gives every child the fixed
energy 50 but clamps the inherited body size only to `[10, 500]`
(`src/agent.rs` line 78, contradicting the code's own comment on line 75 that
promises `clamp(50, 200)`), so a parent of `max_energy` 50 whose mutation draw
is `-5` creates a child with `energy = 50 > max_energy = 45`. -/
theorem new_child_energy_exceeds_max :
    (driftedParent.new_child 1 ⟨7, 8⟩ rng0).1.energy = 50 ∧
      (driftedParent.new_child 1 ⟨7, 8⟩ rng0).1.max_energy = 45 ∧
      ¬ (driftedParent.new_child 1 ⟨7, 8⟩ rng0).1.energy ≤
          (driftedParent.new_child 1 ⟨7, 8⟩ rng0).1.max_energy := by
  refine ⟨rfl, rfl, ?_⟩
  decide

/-- C8: the spec claims `Action::from_output` is total and that every decoding
failure (empty or degenerate output) yields `Stay`.  The empty slice does
yield `Stay`, but a slice whose first seven entries contain a NaN next to an
ordinary value panics: `max_by` calls `a.partial_cmp(b).unwrap()`
(`src/agent.rs` line 127) and `partial_cmp` returns `None` on NaN, so the
decoder errors instead of returning `Stay`. -/
theorem from_output_panics_on_nan :
    Action.from_output [] = Except.ok Action.Stay ∧
      Action.from_output [some 0, none] = Except.error () ∧
      ∀ a : Action, Except.error () ≠ Except.ok a :=
  ⟨rfl, rfl, fun _ h => Except.noConfusion h⟩

/-- C7 counterexample: on the output `[1, 1, 0, 0, 0, 0, 0]` the maximum of
the first seven logits is attained at index 0 (and 1), so the claim's
lowest-index tie-break predicts `Up`; the code returns `Down`, because Rust's
`max_by` keeps the *last* of equally-maximal elements. -/
theorem from_output_tie_not_lowest_index :
    (∀ j, j < 7 →
        ([1, 1, 0, 0, 0, 0, 0] : List ℚ).getD j 0 ≤
          ([1, 1, 0, 0, 0, 0, 0] : List ℚ).getD 0 0) ∧
      Action.from_output (([1, 1, 0, 0, 0, 0, 0] : List ℚ).map some) =
        Except.ok Action.Down ∧
      Action.Down ≠ Action.Up := by
  refine ⟨?_, rfl, ?_⟩
  · decide
  · decide

/-! ### Last-argmax characterization of the decoder (for C7) -/

theorem enumFrom_getElem? {α : Type} (l : List α) (n i : Nat) :
    (l.enumFrom n)[i]? = (l[i]?).map (fun a => (n + i, a)) := by
  induction l generalizing n i with
  | nil => simp [List.enumFrom]
  | cons a t ih =>
    cases i with
    | zero => simp [List.enumFrom]
    | succ k =>
      simp only [List.enumFrom, List.getElem?_cons_succ, ih]
      have hnk : n + 1 + k = n + (k + 1) := by omega
      rw [hnk]

theorem mem_enumFrom_val {α : Type} (l : List α) (n : Nat) (p : Nat × α)
    (hp : p ∈ l.enumFrom n) :
    n ≤ p.1 ∧ p.1 < n + l.length ∧ l[p.1 - n]? = some p.2 := by
  induction l generalizing n with
  | nil => simp [List.enumFrom] at hp
  | cons a t ih =>
    simp only [List.enumFrom, List.mem_cons] at hp
    rcases hp with h | h
    · subst h
      refine ⟨Nat.le_refl n, by simp, ?_⟩
      simp
    · obtain ⟨h1, h2, h3⟩ := ih (n + 1) h
      refine ⟨by omega, by simp; omega, ?_⟩
      have hk : p.1 - n = (p.1 - (n + 1)) + 1 := by omega
      rw [hk, List.getElem?_cons_succ]
      exact h3

theorem enumFrom_drop {α : Type} (l : List α) (n k : Nat) :
    (l.enumFrom n).drop k = (l.drop k).enumFrom (n + k) := by
  induction l generalizing n k with
  | nil => simp [List.enumFrom]
  | cons a t ih =>
    cases k with
    | zero => simp [List.enumFrom]
    | succ m =>
      simp only [List.enumFrom, List.drop_succ_cons, ih]
      congr 1
      omega

theorem foldl_maxByStepQ_all_lt (B : List (Nat × ℚ)) (m : Nat × ℚ)
    (hB : ∀ p ∈ B, p.2 < m.2) : B.foldl maxByStepQ m = m := by
  induction B with
  | nil => rfl
  | cons b B ih =>
    have hb : b.2 < m.2 := hB b (by simp)
    have hstep : maxByStepQ m b = m := by
      unfold maxByStepQ
      have hc : compare m.2 b.2 = Ordering.gt := compare_gt_iff_gt.mpr hb
      rw [hc]
    rw [List.foldl_cons, hstep]
    exact ih fun p hp => hB p (by simp [hp])

theorem foldl_maxByStepQ_to_max (A : List (Nat × ℚ)) (m acc : Nat × ℚ)
    (hA : ∀ p ∈ A, p.2 ≤ m.2) (hacc : acc.2 ≤ m.2) :
    (A ++ [m]).foldl maxByStepQ acc = m := by
  induction A generalizing acc with
  | nil =>
    simp only [List.nil_append, List.foldl_cons, List.foldl_nil]
    unfold maxByStepQ
    rcases hc : compare acc.2 m.2 with _ | _ | _
    · rfl
    · rfl
    · exact absurd (compare_gt_iff_gt.mp hc) (not_lt.mpr hacc)
  | cons a A ih =>
    rw [List.cons_append, List.foldl_cons]
    have ha : a.2 ≤ m.2 := hA a (by simp)
    apply ih
    · exact fun p hp => hA p (by simp [hp])
    · unfold maxByStepQ
      rcases hc : compare acc.2 a.2 with _ | _ | _ <;> simp only []
      · exact ha
      · exact ha
      · exact hacc

/-- C7 amended: for every output with at least seven entries of ordinary
(non-NaN) values, `Action::from_output` returns the action whose index holds
the maximum of the first seven logits, where ties are broken by the *highest*
index (Rust's `max_by` keeps the last of equally-maximal elements), under the
fixed mapping 0 Up, 1 Down, 2 Left, 3 Right, 4 Stay, 5 Attack, 6 Heal. -/
theorem from_output_last_argmax (l : List ℚ) (i : Nat) (hlen : 7 ≤ l.length)
    (hi : i < 7)
    (hmax : ∀ j, j < 7 → l.getD j 0 ≤ l.getD i 0)
    (hlast : ∀ j, j < 7 → i < j → l.getD j 0 < l.getD i 0) :
    Action.from_output (l.map some) = Except.ok (Action.indexToAction i) := by
  rw [from_output_total_agrees]
  congr 1
  unfold Action.from_output_total
  have hvlen : (l.take 7).length = 7 := by rw [List.length_take]; omega
  have hvget : ∀ j, j < 7 → (l.take 7)[j]? = l[j]? := by
    intro j hj
    rw [List.getElem?_take]
    simp [hj]
  have getD_of : ∀ j x, l[j]? = some x → l.getD j 0 = x := by
    intro j x h
    simp [List.getD, List.get?_eq_getElem?, h]
  obtain ⟨a, ha⟩ : ∃ a, l[i]? = some a := by
    have : i < l.length := lt_of_lt_of_le hi hlen
    exact ⟨l[i], (List.getElem?_eq_getElem this)⟩
  have hai : l.getD i 0 = a := getD_of i a ha
  have henumlen : (l.take 7).enum.length = 7 := by rw [List.enum_length, hvlen]
  have hgetei : (l.take 7).enum[i]? = some (i, a) := by
    rw [List.enum, enumFrom_getElem?, hvget i hi, ha]
    simp
  have hAle : ∀ p ∈ (l.take 7).enum, p.2 ≤ a := by
    intro p hp
    obtain ⟨_, h2, h3⟩ := mem_enumFrom_val _ 0 p hp
    rw [Nat.sub_zero] at h3
    rw [Nat.zero_add, hvlen] at h2
    rw [hvget p.1 h2] at h3
    have := hmax p.1 h2
    rw [getD_of p.1 p.2 h3, hai] at this
    exact this
  have hBlt : ∀ p ∈ (l.take 7).enum.drop (i + 1), p.2 < a := by
    intro p hp
    rw [List.enum, enumFrom_drop, Nat.zero_add] at hp
    obtain ⟨h1, h2, h3⟩ := mem_enumFrom_val _ (i + 1) p hp
    rw [List.length_drop, hvlen] at h2
    have hp7 : p.1 < 7 := by omega
    rw [List.getElem?_drop] at h3
    have hidx : i + 1 + (p.1 - (i + 1)) = p.1 := by omega
    rw [hidx, hvget p.1 hp7] at h3
    have := hlast p.1 hp7 (by omega)
    rw [getD_of p.1 p.2 h3, hai] at this
    exact this
  have hisplit : (l.take 7).enum =
      (l.take 7).enum.take i ++ (i, a) :: (l.take 7).enum.drop (i + 1) := by
    have hlt : i < (l.take 7).enum.length := by omega
    have hdrop : (l.take 7).enum.drop i = (i, a) :: (l.take 7).enum.drop (i + 1) := by
      rw [List.drop_eq_getElem_cons hlt]
      have : (l.take 7).enum[i] = (i, a) := by
        have := List.getElem?_eq_getElem hlt
        rw [this] at hgetei
        exact Option.some.inj hgetei
      rw [this]
    rw [← hdrop, List.take_append_drop]
  rcases hA : (l.take 7).enum.take i with _ | ⟨a0, A2⟩
  · rw [hA] at hisplit
    rw [hisplit]
    simp only [List.nil_append]
    rw [foldl_maxByStepQ_all_lt _ _ hBlt]
  · rw [hA] at hisplit
    rw [hisplit]
    simp only [List.cons_append]
    have hsubA : ∀ p ∈ a0 :: A2, p.2 ≤ a := by
      intro p hp
      apply hAle
      rw [hisplit]
      rcases List.mem_cons.mp hp with h | hmem
      · subst h
        exact List.mem_append_left _ (List.mem_cons_self _ _)
      · exact List.mem_append_left _ (List.mem_cons_of_mem _ hmem)
    have hrw : A2 ++ (i, a) :: (l.take 7).enum.drop (i + 1) =
        (A2 ++ [(i, a)]) ++ (l.take 7).enum.drop (i + 1) := by
      simp
    rw [hrw, List.foldl_append]
    rw [foldl_maxByStepQ_to_max A2 (i, a) a0
      (fun p hp => hsubA p (List.mem_cons_of_mem _ hp))
      (hsubA a0 (List.mem_cons_self _ _))]
    rw [foldl_maxByStepQ_all_lt _ _ hBlt]

/-- Witness for `from_output_last_argmax`: on `[0, 5, 5, 0, 0, 0, 0]` the
maximum 5 is attained at indices 1 and 2 and the decoder picks index 2,
`Left`. -/
theorem from_output_last_argmax_witness :
    7 ≤ ([0, 5, 5, 0, 0, 0, 0] : List ℚ).length ∧
      Action.from_output (([0, 5, 5, 0, 0, 0, 0] : List ℚ).map some) =
        Except.ok (Action.indexToAction 2) :=
  ⟨by decide,
    from_output_last_argmax [0, 5, 5, 0, 0, 0, 0] 2 (by decide) (by decide)
      (by decide) (by decide)⟩

/-! ### Registry and world bookkeeping lemmas -/

theorem lookup_updateAgent (w : World) (id j : AgentId) (f : Agent → Agent) :
    lookupAgent j (w.updateAgent id f).agents =
      if j = id then (lookupAgent j w.agents).map f else lookupAgent j w.agents := by
  show lookupAgent j (updateEntries id f w.agents) = _
  induction w.agents with
  | nil => simp [updateEntries, lookupAgent]
  | cons p rest ih =>
    rcases p with ⟨k, b⟩
    simp only [updateEntries]
    by_cases hk : k = id
    · rw [if_pos hk]
      by_cases hj : k = j
      · have hji : j = id := hj.symm.trans hk
        simp only [lookupAgent, if_pos hj, if_pos hji]
        rfl
      · simp only [lookupAgent, if_neg hj]
        exact ih
    · rw [if_neg hk]
      by_cases hj : k = j
      · have hji : ¬ j = id := fun h => hk (hj.trans h)
        simp only [lookupAgent, if_pos hj, if_neg hji]
      · simp only [lookupAgent, if_neg hj]
        exact ih

theorem lookup_updateAgent_self (w : World) (id : AgentId) (f : Agent → Agent) :
    lookupAgent id (w.updateAgent id f).agents = (lookupAgent id w.agents).map f := by
  rw [lookup_updateAgent, if_pos rfl]

theorem lookup_updateAgent_other (w : World) (id j : AgentId) (f : Agent → Agent)
    (h : j ≠ id) :
    lookupAgent j (w.updateAgent id f).agents = lookupAgent j w.agents := by
  rw [lookup_updateAgent, if_neg h]

theorem lookup_append (j : AgentId) (l1 l2 : List (AgentId × Agent)) :
    lookupAgent j (l1 ++ l2) =
      match lookupAgent j l1 with
      | some a => some a
      | none => lookupAgent j l2 := by
  induction l1 with
  | nil => simp [lookupAgent]
  | cons p rest ih =>
    by_cases hp : p.1 = j <;> simp [lookupAgent, hp, ih]

theorem updateAgent_keys (w : World) (id : AgentId) (f : Agent → Agent) :
    (w.updateAgent id f).agents.map Prod.fst = w.agents.map Prod.fst := by
  show (updateEntries id f w.agents).map Prod.fst = _
  induction w.agents with
  | nil => rfl
  | cons p rest ih =>
    rcases p with ⟨k, b⟩
    simp only [updateEntries, List.map_cons]
    by_cases hk : k = id
    · rw [if_pos hk]
      simp [ih]
    · rw [if_neg hk]
      simp [ih]

theorem lookup_eq_none_of_not_mem_keys (j : AgentId) (l : List (AgentId × Agent))
    (h : j ∉ l.map Prod.fst) : lookupAgent j l = none := by
  induction l with
  | nil => rfl
  | cons p rest ih =>
    simp only [List.map_cons, List.mem_cons] at h
    push_neg at h
    have h1 : ¬ p.1 = j := fun he => h.1 he.symm
    simp [lookupAgent, h1, ih h.2]

theorem mem_keys_of_lookup_eq_some (j : AgentId) (l : List (AgentId × Agent))
    (a : Agent) (h : lookupAgent j l = some a) : j ∈ l.map Prod.fst := by
  induction l with
  | nil => simp [lookupAgent] at h
  | cons p rest ih =>
    simp only [lookupAgent] at h
    by_cases hp : p.1 = j
    · simp [hp]
    · rw [if_neg hp] at h
      simp [ih h]

theorem freeSpots_updateAgent (w : World) (id : AgentId) (f : Agent → Agent)
    (c : Position) : (w.updateAgent id f).freeSpots c = w.freeSpots c := rfl

theorem updateAgent_rng (w : World) (id : AgentId) (f : Agent → Agent) :
    (w.updateAgent id f).rng = w.rng := rfl

theorem updateAgent_next_id (w : World) (id : AgentId) (f : Agent → Agent) :
    (w.updateAgent id f).next_id = w.next_id := rfl

theorem updateAgent_grid (w : World) (id : AgentId) (f : Agent → Agent) :
    (w.updateAgent id f).grid = w.grid := rfl

theorem updateAgent_foods (w : World) (id : AgentId) (f : Agent → Agent) :
    (w.updateAgent id f).foods = w.foods := rfl

theorem updateAgent_agents (w : World) (id : AgentId) (f : Agent → Agent) :
    (w.updateAgent id f).agents = updateEntries id f w.agents := rfl

/-- The reproduction-cost update applied to the parent's entry. -/
def reproduceCostUpd : Agent → Agent :=
  fun p => { p with energy := p.energy - REPRODUCE_COST }

/-- C6: an agent at the reproduction threshold (`energy = max_energy`) pays
the fixed reproduction cost in every case; with no vacant in-bounds Chebyshev
neighbor the registry gains no entry, and with at least one vacant neighbor it
gains exactly one child, placed on a vacant neighbor cell, with the fixed
child initial energy and the parent's generation plus one.  The cost
deduction saturates at 0, exactly as `u32::saturating_sub` does. -/
theorem try_reproduce_at_threshold (w : World) (id : AgentId) (a : Agent)
    (ha : lookupAgent id w.agents = some a)
    (hE : a.energy = a.max_energy) :
    (lookupAgent id (w.try_reproduce id).agents).map (fun p => p.energy) =
        some (a.max_energy - REPRODUCE_COST) ∧
      (w.freeSpots a.pos = [] →
        (w.try_reproduce id).agents = updateEntries id reproduceCostUpd w.agents) ∧
      (w.freeSpots a.pos ≠ [] →
        ∃ c : Agent,
          (w.try_reproduce id).agents =
            updateEntries id reproduceCostUpd w.agents ++ [(w.next_id, c)] ∧
          c.pos ∈ w.freeSpots a.pos ∧ c.energy = CHILD_INIT_ENERGY ∧
          c.generation = a.generation + 1 ∧ c.age = 0) := by
  have hcan : a.energy ≥ a.max_energy := ge_of_eq hE
  have hfold : (fun p : Agent => { p with energy := p.energy - REPRODUCE_COST }) =
      reproduceCostUpd := rfl
  have hup : lookupAgent id (updateEntries id reproduceCostUpd w.agents) =
      some (reproduceCostUpd a) := by
    have h2 := lookup_updateAgent_self w id reproduceCostUpd
    rw [show (w.updateAgent id reproduceCostUpd).agents =
        updateEntries id reproduceCostUpd w.agents from rfl] at h2
    rw [h2, ha]
    rfl
  have hup2 : lookupAgent id (w.updateAgent id reproduceCostUpd).agents =
      some (reproduceCostUpd a) := hup
  by_cases hsp : w.freeSpots a.pos = []
  · have hred : (w.try_reproduce id).agents =
        updateEntries id reproduceCostUpd w.agents := by
      simp only [World.try_reproduce, ha, hcan, if_true, hfold, freeSpots_updateAgent,
        hsp, List.isEmpty_nil, if_true]
      rfl
    refine ⟨?_, fun _ => hred, fun h => absurd hsp h⟩
    rw [hred, hup]
    simp [reproduceCostUpd, hE]
  · have hne : (w.freeSpots a.pos).isEmpty = false :=
      List.isEmpty_eq_false.mpr hsp
    have hlenpos : 0 < (w.freeSpots a.pos).length := List.length_pos.mpr hsp
    have hidx : (w.rng.stream w.rng.pos) % (w.freeSpots a.pos).length <
        (w.freeSpots a.pos).length := Nat.mod_lt _ hlenpos
    have hget : (w.freeSpots a.pos).get?
        ((w.rng.stream w.rng.pos) % (w.freeSpots a.pos).length) =
        some ((w.freeSpots a.pos)[(w.rng.stream w.rng.pos) % (w.freeSpots a.pos).length]) := by
      rw [List.get?_eq_getElem?]
      exact List.getElem?_eq_getElem hidx
    have hred : (w.try_reproduce id).agents =
        updateEntries id reproduceCostUpd w.agents ++
          [(w.next_id,
            ((reproduceCostUpd a).new_child w.next_id
              ((w.freeSpots a.pos)[(w.rng.stream w.rng.pos) % (w.freeSpots a.pos).length])
              { stream := w.rng.stream, pos := w.rng.pos + 1 }).1)] := by
      simp only [World.try_reproduce, ha, hcan, if_true, hfold, freeSpots_updateAgent,
        updateAgent_rng, updateAgent_next_id, Rng.randRange, Rng.next, hne,
        Bool.false_eq_true, if_false, hget, hup2]
      rfl
    refine ⟨?_, fun h => absurd h hsp, fun _ => ?_⟩
    · rw [hred, lookup_append, hup]
      show Option.map (fun p => p.energy) (some (reproduceCostUpd a)) = _
      simp [reproduceCostUpd, hE]
    · refine ⟨((reproduceCostUpd a).new_child w.next_id
          ((w.freeSpots a.pos)[(w.rng.stream w.rng.pos) % (w.freeSpots a.pos).length])
          { stream := w.rng.stream, pos := w.rng.pos + 1 }).1, hred, ?_, rfl, rfl, rfl⟩
      exact List.getElem_mem _

/-- A single agent at the reproduction threshold, used as witness input. -/
def thresholdAgent : Agent :=
  { id := 0, pos := ⟨0, 0⟩, energy := 100, max_energy := 100,
    generation := 1, color := { r := 0, g := 0, b := 0 }, last_action := none,
    age := 0, lifespan := 600 }

/-- A world holding only `thresholdAgent`, used as witness input. -/
def thresholdWorld : World :=
  { step := 0,
    agents := [(0, thresholdAgent)],
    grid := fun p => if p = (⟨0, 0⟩ : Position) then some 0 else none,
    foods := fun _ => false,
    rng := rng0, next_id := 1 }

/-- Witness for `try_reproduce_at_threshold`: the single threshold agent of
`thresholdWorld` pays 70 (down to 30) and its free-spot list is nonempty, so
the registry gains exactly one child entry. -/
theorem try_reproduce_at_threshold_witness :
    (lookupAgent 0 (thresholdWorld.try_reproduce 0).agents).map
        (fun p => p.energy) = some (thresholdAgent.max_energy - REPRODUCE_COST) ∧
      thresholdWorld.freeSpots thresholdAgent.pos ≠ [] :=
  ⟨(try_reproduce_at_threshold thresholdWorld 0 thresholdAgent rfl rfl).1, by decide⟩

/-! ### Movement semantics (for C9) -/

/-- The movement-cost deduction applied to the mover. -/
def moveCostUpd : Agent → Agent :=
  fun p => { p with energy := p.energy - 1 }

/-- The color write plus base metabolic cost of `apply_action`. -/
def colorCostUpd (ncol : Color) : Agent → Agent :=
  fun p => { p with color := ncol, energy := p.energy - 1 }

theorem updateEntries_cons_eq (id : AgentId) (f : Agent → Agent) (k : AgentId)
    (b : Agent) (rest : List (AgentId × Agent)) (hk : k = id) :
    updateEntries id f ((k, b) :: rest) = (k, f b) :: updateEntries id f rest := by
  subst hk
  simp [updateEntries]

theorem updateEntries_cons_ne (id : AgentId) (f : Agent → Agent) (k : AgentId)
    (b : Agent) (rest : List (AgentId × Agent)) (hk : ¬ k = id) :
    updateEntries id f ((k, b) :: rest) = (k, b) :: updateEntries id f rest := by
  simp [updateEntries, hk]

theorem updateEntries_comp (id : AgentId) (f g : Agent → Agent)
    (l : List (AgentId × Agent)) :
    updateEntries id g (updateEntries id f l) =
      updateEntries id (fun a => g (f a)) l := by
  induction l with
  | nil => rfl
  | cons p rest ih =>
    rcases p with ⟨k, b⟩
    by_cases hk : k = id
    · rw [updateEntries_cons_eq id f k b rest hk,
        updateEntries_cons_eq id g k (f b) _ hk,
        updateEntries_cons_eq id (fun a => g (f a)) k b rest hk, ih]
    · rw [updateEntries_cons_ne id f k b rest hk,
        updateEntries_cons_ne id g k b _ hk,
        updateEntries_cons_ne id (fun a => g (f a)) k b rest hk, ih]

theorem colorCostUpd_pos (ncol : Color) (a : Agent) :
    (colorCostUpd ncol a).pos = a.pos := rfl

/-- The behavior of `World::move_agent` on a live agent: the movement cost is
always paid; an off-grid or occupied target cancels the move with grid, foods
and position untouched; a vacant target swaps the two grid cells and updates
the position, and food on the target cell is consumed with the gain capped at
`max_energy`. -/
theorem move_agent_spec (w : World) (id : AgentId) (a : Agent) (action : Action)
    (ha : lookupAgent id w.agents = some a) :
    (((a.pos.x : Int) + (moveOffset action).1 < 0 ∨
        (a.pos.y : Int) + (moveOffset action).2 < 0 ∨
        (a.pos.x : Int) + (moveOffset action).1 ≥ (WIDTH : Int) ∨
        (a.pos.y : Int) + (moveOffset action).2 ≥ (HEIGHT : Int)) →
      (w.move_agent id action).agents = updateEntries id moveCostUpd w.agents ∧
        (w.move_agent id action).grid = w.grid ∧
        (w.move_agent id action).foods = w.foods) ∧
    (¬ ((a.pos.x : Int) + (moveOffset action).1 < 0 ∨
        (a.pos.y : Int) + (moveOffset action).2 < 0 ∨
        (a.pos.x : Int) + (moveOffset action).1 ≥ (WIDTH : Int) ∨
        (a.pos.y : Int) + (moveOffset action).2 ≥ (HEIGHT : Int)) →
      (w.grid ⟨((a.pos.x : Int) + (moveOffset action).1).toNat,
          ((a.pos.y : Int) + (moveOffset action).2).toNat⟩ ≠ none →
        (w.move_agent id action).agents = updateEntries id moveCostUpd w.agents ∧
          (w.move_agent id action).grid = w.grid ∧
          (w.move_agent id action).foods = w.foods) ∧
      (w.grid ⟨((a.pos.x : Int) + (moveOffset action).1).toNat,
          ((a.pos.y : Int) + (moveOffset action).2).toNat⟩ = none →
        (w.move_agent id action).grid = (fun p =>
          if p = (⟨((a.pos.x : Int) + (moveOffset action).1).toNat,
              ((a.pos.y : Int) + (moveOffset action).2).toNat⟩ : Position) then some id
          else if p = a.pos then none else w.grid p) ∧
        (w.foods ⟨((a.pos.x : Int) + (moveOffset action).1).toNat,
            ((a.pos.y : Int) + (moveOffset action).2).toNat⟩ = false →
          (w.move_agent id action).agents = updateEntries id (fun p =>
            { p with
              energy := p.energy - 1
              pos := ⟨((a.pos.x : Int) + (moveOffset action).1).toNat,
                ((a.pos.y : Int) + (moveOffset action).2).toNat⟩ }) w.agents ∧
          (w.move_agent id action).foods = w.foods) ∧
        (w.foods ⟨((a.pos.x : Int) + (moveOffset action).1).toNat,
            ((a.pos.y : Int) + (moveOffset action).2).toNat⟩ = true →
          (w.move_agent id action).agents = updateEntries id (fun p =>
            { p with
              energy := min (p.energy - 1 + FOOD_ENERGY) p.max_energy
              pos := ⟨((a.pos.x : Int) + (moveOffset action).1).toNat,
                ((a.pos.y : Int) + (moveOffset action).2).toNat⟩ }) w.agents ∧
          (w.move_agent id action).foods = (fun p =>
            if p = (⟨((a.pos.x : Int) + (moveOffset action).1).toNat,
                ((a.pos.y : Int) + (moveOffset action).2).toNat⟩ : Position) then false
            else w.foods p)))) := by
  have hmfold : (fun p : Agent => { p with energy := p.energy - 1 }) = moveCostUpd := rfl
  refine ⟨fun hwall => ?_, fun hin => ⟨fun hocc => ?_, fun hfree => ⟨?_, fun hnofood => ?_,
    fun hfood => ?_⟩⟩⟩
  · refine ⟨?_, ?_, ?_⟩ <;>
      simp only [World.move_agent, ha, hmfold, updateAgent_grid, updateAgent_foods,
        updateAgent_agents, if_pos hwall]
  · refine ⟨?_, ?_, ?_⟩ <;>
      simp only [World.move_agent, ha, hmfold, updateAgent_grid, updateAgent_foods,
        updateAgent_agents, if_neg hin, if_neg hocc]
  · rcases hfd : w.foods ⟨((a.pos.x : Int) + (moveOffset action).1).toNat,
        ((a.pos.y : Int) + (moveOffset action).2).toNat⟩
    · simp only [World.move_agent, ha, hmfold, updateAgent_grid, updateAgent_foods,
        updateAgent_agents, if_neg hin, if_pos hfree, hfd, Bool.false_eq_true, if_false]
    · simp only [World.move_agent, ha, hmfold, updateAgent_grid, updateAgent_foods,
        updateAgent_agents, if_neg hin, if_pos hfree, hfd, if_true]
  · constructor
    · simp only [World.move_agent, ha, hmfold, updateAgent_grid, updateAgent_foods,
        updateAgent_agents, if_neg hin, if_pos hfree, hnofood, Bool.false_eq_true, if_false]
      rw [updateEntries_comp]
      rfl
    · simp only [World.move_agent, ha, hmfold, updateAgent_grid, updateAgent_foods,
        updateAgent_agents, if_neg hin, if_pos hfree, hnofood, Bool.false_eq_true, if_false]
  · constructor
    · simp only [World.move_agent, ha, hmfold, updateAgent_grid, updateAgent_foods,
        updateAgent_agents, if_neg hin, if_pos hfree, hfood, if_true]
      rw [updateEntries_comp, updateEntries_comp]
      rfl
    · simp only [World.move_agent, ha, hmfold, updateAgent_grid, updateAgent_foods,
        updateAgent_agents, if_neg hin, if_pos hfree, hfood, if_true]

/-- C9: for a live agent and a move action, `apply_action` always deducts the
base metabolic cost and the movement cost (both saturating); an off-grid or
occupied target cancels the move with the grid, the food mask and the position
unchanged while the costs stay paid; a vacant target vacates the old cell,
occupies the target cell and updates the position; and food on the target
cell is cleared and grants the fixed food energy capped at the agent's
`max_energy`. -/
theorem apply_action_move (w : World) (id : AgentId) (a : Agent) (action : Action)
    (ncol : Color) (ha : lookupAgent id w.agents = some a)
    (hmv : action = Action.Up ∨ action = Action.Down ∨ action = Action.Left ∨
      action = Action.Right) :
    (((a.pos.x : Int) + (moveOffset action).1 < 0 ∨
        (a.pos.y : Int) + (moveOffset action).2 < 0 ∨
        (a.pos.x : Int) + (moveOffset action).1 ≥ (WIDTH : Int) ∨
        (a.pos.y : Int) + (moveOffset action).2 ≥ (HEIGHT : Int)) →
      (w.apply_action id action ncol).agents = updateEntries id (fun p =>
          { p with color := ncol, energy := p.energy - 1 - 1 }) w.agents ∧
        (w.apply_action id action ncol).grid = w.grid ∧
        (w.apply_action id action ncol).foods = w.foods) ∧
    (¬ ((a.pos.x : Int) + (moveOffset action).1 < 0 ∨
        (a.pos.y : Int) + (moveOffset action).2 < 0 ∨
        (a.pos.x : Int) + (moveOffset action).1 ≥ (WIDTH : Int) ∨
        (a.pos.y : Int) + (moveOffset action).2 ≥ (HEIGHT : Int)) →
      (w.grid ⟨((a.pos.x : Int) + (moveOffset action).1).toNat,
          ((a.pos.y : Int) + (moveOffset action).2).toNat⟩ ≠ none →
        (w.apply_action id action ncol).agents = updateEntries id (fun p =>
            { p with color := ncol, energy := p.energy - 1 - 1 }) w.agents ∧
          (w.apply_action id action ncol).grid = w.grid ∧
          (w.apply_action id action ncol).foods = w.foods) ∧
      (w.grid ⟨((a.pos.x : Int) + (moveOffset action).1).toNat,
          ((a.pos.y : Int) + (moveOffset action).2).toNat⟩ = none →
        (w.apply_action id action ncol).grid = (fun p =>
          if p = (⟨((a.pos.x : Int) + (moveOffset action).1).toNat,
              ((a.pos.y : Int) + (moveOffset action).2).toNat⟩ : Position) then some id
          else if p = a.pos then none else w.grid p) ∧
        (w.foods ⟨((a.pos.x : Int) + (moveOffset action).1).toNat,
            ((a.pos.y : Int) + (moveOffset action).2).toNat⟩ = false →
          (w.apply_action id action ncol).agents = updateEntries id (fun p =>
            { p with
              color := ncol
              energy := p.energy - 1 - 1
              pos := ⟨((a.pos.x : Int) + (moveOffset action).1).toNat,
                ((a.pos.y : Int) + (moveOffset action).2).toNat⟩ }) w.agents ∧
          (w.apply_action id action ncol).foods = w.foods) ∧
        (w.foods ⟨((a.pos.x : Int) + (moveOffset action).1).toNat,
            ((a.pos.y : Int) + (moveOffset action).2).toNat⟩ = true →
          (w.apply_action id action ncol).agents = updateEntries id (fun p =>
            { p with
              color := ncol
              energy := min (p.energy - 1 - 1 + FOOD_ENERGY) p.max_energy
              pos := ⟨((a.pos.x : Int) + (moveOffset action).1).toNat,
                ((a.pos.y : Int) + (moveOffset action).2).toNat⟩ }) w.agents ∧
          (w.apply_action id action ncol).foods = (fun p =>
            if p = (⟨((a.pos.x : Int) + (moveOffset action).1).toNat,
                ((a.pos.y : Int) + (moveOffset action).2).toNat⟩ : Position) then false
            else w.foods p)))) := by
  have hcfold : (fun p : Agent => { p with color := ncol, energy := p.energy - 1 }) =
      colorCostUpd ncol := rfl
  have hdisp : w.apply_action id action ncol =
      (w.updateAgent id (colorCostUpd ncol)).move_agent id action := by
    rcases hmv with rfl | rfl | rfl | rfl <;> simp only [World.apply_action, ha, hcfold]
  have hlook2 : lookupAgent id (w.updateAgent id (colorCostUpd ncol)).agents =
      some (colorCostUpd ncol a) := by
    rw [lookup_updateAgent_self, ha]
    rfl
  have spec := move_agent_spec (w.updateAgent id (colorCostUpd ncol)) id
    (colorCostUpd ncol a) action hlook2
  simp only [colorCostUpd_pos, updateAgent_grid, updateAgent_foods, updateAgent_agents,
    updateEntries_comp] at spec
  rw [hdisp]
  exact spec

/-- Witness for `apply_action_move`: the `thresholdWorld` agent at `(0, 0)`
moving `Up` hits the wall, so both costs are paid and the grid and food mask
stay unchanged. -/
theorem apply_action_move_witness :
    ((thresholdAgent.pos.x : Int) + (moveOffset Action.Up).1 < 0 ∨
      (thresholdAgent.pos.y : Int) + (moveOffset Action.Up).2 < 0 ∨
      (thresholdAgent.pos.x : Int) + (moveOffset Action.Up).1 ≥ (WIDTH : Int) ∨
      (thresholdAgent.pos.y : Int) + (moveOffset Action.Up).2 ≥ (HEIGHT : Int)) ∧
    ((thresholdWorld.apply_action 0 Action.Up { r := 0, g := 0, b := 0 }).agents =
      updateEntries 0 (fun p =>
        { p with color := { r := 0, g := 0, b := 0 }, energy := p.energy - 1 - 1 })
        thresholdWorld.agents ∧
      (thresholdWorld.apply_action 0 Action.Up { r := 0, g := 0, b := 0 }).grid =
        thresholdWorld.grid ∧
      (thresholdWorld.apply_action 0 Action.Up { r := 0, g := 0, b := 0 }).foods =
        thresholdWorld.foods) :=
  ⟨by decide,
    (apply_action_move thresholdWorld 0 thresholdAgent Action.Up
      { r := 0, g := 0, b := 0 } rfl (Or.inl rfl)).1 (by decide)⟩

/-! ### Attack semantics (for C5) -/

/-- The interact-cost deduction of `interact_area`, `src/world.rs` line 343. -/
def interactCostUpd : Agent → Agent :=
  fun p => { p with energy := p.energy - INTERACT_COST }

/-- `cellAt` is injective in the offset: a neighbor cell determines the
offset that reached it. -/
theorem cellAt_inj (c : Position) (d e : Int × Int) (p : Position)
    (hd : cellAt c d = some p) (he : cellAt c e = some p) : d = e := by
  simp only [cellAt] at hd he
  split at hd
  · next hcond =>
    injection hd with hd2
    split at he
    · next hcond2 =>
      injection he with he2
      rw [← he2] at hd2
      injection hd2 with hx hy
      obtain ⟨h1, h2, h3, h4⟩ := hcond
      obtain ⟨g1, g2, g3, g4⟩ := hcond2
      have hdx : d.2 = e.2 := by omega
      have hdy : d.1 = e.1 := by omega
      rcases d with ⟨d1, d2⟩
      rcases e with ⟨e1, e2⟩
      simp only [] at hdx hdy
      rw [hdx, hdy]
    · exact absurd he (by simp)
  · exact absurd hd (by simp)

/-- `interactStep` leaves the combat step's grid untouched. -/
theorem interactStep_grid (v : World) (id : AgentId) (eff : Int) (c : Position)
    (e : Int × Int) : (v.interactStep id eff c e).grid = v.grid := by
  unfold World.interactStep
  split
  · rfl
  · split
    · rfl
    · split
      · rfl
      · split
        · rfl
        · split
          · rfl
          · rfl

/-- A combat step on an excluded, off-grid or empty neighbor cell is the
identity. -/
theorem interactStep_skip (v : World) (id : AgentId) (eff : Int) (c : Position)
    (e : Int × Int)
    (h : (e.2 = 0 ∧ e.1 = 0) ∨ cellAt c e = none ∨
      (∀ p, cellAt c e = some p → v.grid p = none)) :
    v.interactStep id eff c e = v := by
  unfold World.interactStep
  by_cases h0 : e.2 = 0 ∧ e.1 = 0
  · rw [if_pos h0]
  · rw [if_neg h0]
    rcases h with h | h | h
    · exact absurd h h0
    · rw [h]
    · rcases hc : cellAt c e with _ | p
      · rfl
      · simp only [h p hc]

theorem foldl_interactStep_skip (id : AgentId) (eff : Int) (c : Position)
    (g : Position → Option AgentId) (L : List (Int × Int)) (v : World)
    (hg : v.grid = g)
    (h : ∀ e ∈ L, (e.2 = 0 ∧ e.1 = 0) ∨ cellAt c e = none ∨
      (∀ p, cellAt c e = some p → g p = none)) :
    L.foldl (fun v2 e => v2.interactStep id eff c e) v = v := by
  induction L with
  | nil => rfl
  | cons e L ih =>
    rw [List.foldl_cons, interactStep_skip v id eff c e (by rw [hg]; exact h e (by simp))]
    exact ih fun e2 he2 => h e2 (by simp [he2])

/-- C5: an attacker `A` whose sole occupied in-bounds Chebyshev neighbor is a
target `T` with at least 20 energy: after `interact_area` with the fixed
attack effect, `T` loses exactly 20 energy, and `A`, measured after its fixed
10-point interact-cost deduction, gains
`min (A.max_energy - (A.energy - 10)) 16` — 80 percent of the 20 removed,
capped by `A`'s own `max_energy`. -/
theorem interact_area_attack_lifesteal (w : World) (id tid : AgentId)
    (a t : Agent) (d : Int × Int)
    (ha : lookupAgent id w.agents = some a)
    (hbound : a.energy ≤ a.max_energy)
    (ht : lookupAgent tid w.agents = some t)
    (hne : tid ≠ id)
    (hd0 : ¬ (d.2 = 0 ∧ d.1 = 0))
    (hcell : cellAt a.pos d = some t.pos)
    (hgridT : w.grid t.pos = some tid)
    (honly : ∀ e ∈ interactOffsets, ¬ (e.2 = 0 ∧ e.1 = 0) → ∀ p,
      cellAt a.pos e = some p → p ≠ t.pos → w.grid p = none)
    (hdmem : d ∈ interactOffsets)
    (hET : 20 ≤ t.energy) :
    lookupAgent tid (w.interact_area id ATTACK_AMOUNT).agents =
        some { t with energy := t.energy - 20 } ∧
      lookupAgent id (w.interact_area id ATTACK_AMOUNT).agents =
        some { a with energy :=
          (a.energy - INTERACT_COST) + min (a.max_energy - (a.energy - INTERACT_COST)) 16 } := by
  have hifold : (fun p : Agent => { p with energy := p.energy - INTERACT_COST }) =
      interactCostUpd := rfl
  have hgrid2 : (w.updateAgent id interactCostUpd).grid = w.grid := rfl
  have hlookA2 : lookupAgent id (w.updateAgent id interactCostUpd).agents =
      some (interactCostUpd a) := by
    rw [lookup_updateAgent_self, ha]
    rfl
  have hlookT2 : lookupAgent tid (w.updateAgent id interactCostUpd).agents = some t := by
    rw [lookup_updateAgent_other _ _ _ _ hne, ht]
  obtain ⟨L1, L2, hsplit⟩ := List.append_of_mem hdmem
  have hnodup : interactOffsets.Nodup := by decide
  have hdL1 : d ∉ L1 := by
    rw [hsplit] at hnodup
    intro hmem
    exact (List.disjoint_of_nodup_append hnodup) hmem (by simp)
  have hdL2 : d ∉ L2 := by
    rw [hsplit] at hnodup
    have := (List.nodup_append.mp hnodup).2.1
    exact (List.nodup_cons.mp this).1
  have hskip : ∀ e ∈ interactOffsets, e ≠ d →
      (e.2 = 0 ∧ e.1 = 0) ∨ cellAt a.pos e = none ∨
        (∀ p, cellAt a.pos e = some p → w.grid p = none) := by
    intro e hemem hed
    by_cases h0 : e.2 = 0 ∧ e.1 = 0
    · exact Or.inl h0
    · refine Or.inr (Or.inr fun p2 hp2 => ?_)
      refine honly e hemem h0 p2 hp2 fun hpt => ?_
      rw [hpt] at hp2
      exact hed (cellAt_inj a.pos e d t.pos hp2 hcell)
  have hdamage : min t.energy (Int.natAbs ATTACK_AMOUNT) = 20 := by
    rw [show Int.natAbs ATTACK_AMOUNT = 20 from rfl]
    exact Nat.min_eq_right hET
  have hstep : (w.updateAgent id interactCostUpd).interactStep id ATTACK_AMOUNT a.pos d =
      ((w.updateAgent id interactCostUpd).updateAgent tid
          (fun p => { p with energy := p.energy - 20 })).updateAgent id
        (fun p => { p with energy := min (p.energy + 16) p.max_energy }) := by
    unfold World.interactStep
    rw [if_neg hd0, hcell]
    simp only [hgrid2, hgridT, hlookT2, hdamage,
      if_pos (show ATTACK_AMOUNT < (0 : Int) by decide)]
  have hred : w.interact_area id ATTACK_AMOUNT =
      ((w.updateAgent id interactCostUpd).updateAgent tid
          (fun p => { p with energy := p.energy - 20 })).updateAgent id
        (fun p => { p with energy := min (p.energy + 16) p.max_energy }) := by
    simp only [World.interact_area, ha, hifold]
    rw [hsplit, List.foldl_append]
    rw [foldl_interactStep_skip id ATTACK_AMOUNT a.pos w.grid L1
      (w.updateAgent id interactCostUpd) rfl
      (fun e he => hskip e (by rw [hsplit]; exact List.mem_append_left _ he)
        (fun hed => hdL1 (hed ▸ he)))]
    rw [List.foldl_cons, hstep]
    exact foldl_interactStep_skip id ATTACK_AMOUNT a.pos w.grid L2 _ rfl
      (fun e he => hskip e
        (by rw [hsplit]; exact List.mem_append_right _ (List.mem_cons_of_mem _ he))
        (fun hed => hdL2 (hed ▸ he)))
  constructor
  · rw [hred, lookup_updateAgent_other _ _ _ _ hne, lookup_updateAgent_self, hlookT2]
    rfl
  · rw [hred, lookup_updateAgent_self,
      lookup_updateAgent_other _ _ _ _ (fun h => hne h.symm), hlookA2]
    have hcap : min ((a.energy - INTERACT_COST) + 16) a.max_energy =
        (a.energy - INTERACT_COST) + min (a.max_energy - (a.energy - INTERACT_COST)) 16 := by
      have h1 : a.energy - INTERACT_COST ≤ a.max_energy := le_trans (Nat.sub_le _ _) hbound
      omega
    rw [← hcap]
    rfl

/-- The attacker of the witness duel: id 0 at `(5, 5)` with energy 50. -/
def attackerAgent : Agent :=
  { id := 0, pos := ⟨5, 5⟩, energy := 50, max_energy := 100,
    generation := 1, color := { r := 0, g := 0, b := 0 }, last_action := none,
    age := 0, lifespan := 600 }

/-- The target of the witness duel: id 1 at `(5, 6)` with energy 50. -/
def targetAgent : Agent :=
  { id := 1, pos := ⟨5, 6⟩, energy := 50, max_energy := 100,
    generation := 1, color := { r := 0, g := 0, b := 0 }, last_action := none,
    age := 0, lifespan := 600 }

/-- A world holding only the attacker and its sole neighbor, the target. -/
def duelWorld : World :=
  { step := 0,
    agents := [(0, attackerAgent), (1, targetAgent)],
    grid := fun p =>
      if p = (⟨5, 5⟩ : Position) then some 0
      else if p = (⟨5, 6⟩ : Position) then some 1 else none,
    foods := fun _ => false,
    rng := rng0, next_id := 2 }

/-- Witness for `interact_area_attack_lifesteal`: in `duelWorld` the target
drops from 50 to 30 and the attacker, after paying 10, absorbs the full 16. -/
theorem interact_area_attack_lifesteal_witness :
    lookupAgent 1 (duelWorld.interact_area 0 ATTACK_AMOUNT).agents =
        some { targetAgent with energy := targetAgent.energy - 20 } ∧
      lookupAgent 0 (duelWorld.interact_area 0 ATTACK_AMOUNT).agents =
        some { attackerAgent with energy := (attackerAgent.energy - INTERACT_COST) + min (attackerAgent.max_energy - (attackerAgent.energy - INTERACT_COST)) 16 } :=
  interact_area_attack_lifesteal duelWorld 0 1 attackerAgent targetAgent (1, 0)
    rfl (by decide) rfl (by decide) (by decide) (by decide) (by decide)
    (by
      intro e he he0 p hp hpn
      fin_cases he <;> simp_all [cellAt, duelWorld, attackerAgent, targetAgent, WIDTH, HEIGHT] <;>
        (subst hp; decide))
    (by decide) (by decide)

/-! ### Perception semantics (for C10) -/

theorem inputCell_length (w : World) (id : AgentId) (c : Position) (d : Int × Int) :
    (w.inputCell id c d).length = 6 := by
  simp only [World.inputCell]
  split
  · rfl
  · split
    · split
      · split
        · rfl
        · rfl
      · rfl
    · rfl

theorem length_flatMap_const {α β : Type} (l : List α) (f : α → List β) (c : Nat)
    (h : ∀ a ∈ l, (f a).length = c) : (l.flatMap f).length = c * l.length := by
  induction l with
  | nil => simp
  | cons x xs ih =>
    rw [List.flatMap_cons, List.length_append, h x (by simp),
      ih (fun a ha => h a (by simp [ha])), List.length_cons]
    ring

theorem flatMap_slice {α β : Type} (l : List α) (f : α → List β) (c : Nat)
    (h : ∀ a ∈ l, (f a).length = c) :
    ∀ (k : Nat) (a : α), l[k]? = some a →
      ((l.flatMap f).drop (c * k)).take c = f a := by
  induction l with
  | nil => intro k a hk; simp at hk
  | cons x xs ih =>
    intro k a hk
    cases k with
    | zero =>
      rw [List.getElem?_cons_zero] at hk
      injection hk with hk
      subst hk
      rw [List.flatMap_cons, Nat.mul_zero, List.drop_zero]
      exact List.take_left' (h x (by simp))
    | succ k2 =>
      rw [List.getElem?_cons_succ] at hk
      have hx := h x (by simp)
      rw [List.flatMap_cons,
        show c * (k2 + 1) = (f x).length + c * k2 from by rw [hx]; ring,
        List.drop_append]
      exact ih (fun a2 ha2 => h a2 (by simp [ha2])) k2 a hk

theorem rangeInt_getElem? (lo hi : Int) (k : Nat) (hk : k < (hi - lo + 1).toNat) :
    (rangeInt lo hi)[k]? = some (lo + k) := by
  unfold rangeInt
  rw [List.getElem?_map, List.getElem?_range hk]
  rfl

theorem inputOffsets_getElem? (i j : Nat) (hi : i < 7) (hj : j < 7) :
    inputOffsets[7 * i + j]? = some ((i : Int) - 3, (j : Int) - 3) := by
  have hoff : inputOffsets =
      (rangeInt (-3) 3).flatMap (fun dy => (rangeInt (-3) 3).map (fun dx => (dy, dx))) := rfl
  have hlen : ∀ dy ∈ rangeInt (-3) 3,
      ((rangeInt (-3) 3).map (fun dx => (dy, dx))).length = 7 := by
    intro dy _
    rw [List.length_map]
    rfl
  have hrow : (rangeInt (-3) 3)[i]? = some ((i : Int) - 3) := by
    have hiq : (-3 : Int) + i = (i : Int) - 3 := by omega
    rw [rangeInt_getElem? (-3) 3 i (by omega), hiq]
  have hslice := flatMap_slice (rangeInt (-3) 3)
    (fun dy => (rangeInt (-3) 3).map (fun dx => (dy, dx))) 7 hlen i ((i : Int) - 3) hrow
  rw [hoff, ← List.getElem?_drop, ← List.getElem?_take_of_lt hj, hslice,
    List.getElem?_map, rangeInt_getElem? (-3) 3 j (by omega)]
  have hjq : (-3 : Int) + j = (j : Int) - 3 := by omega
  rw [Option.map_some', hjq]

/-- C10: the perception vector of a live in-bounds agent has length exactly
294 (7×7 cells times 6 channels, raster order: `dy` outer from -3 to 3, `dx`
inner); the 6-channel slice of cell `(i, j)` sits at offset `6*(7*i + j)`;
every out-of-bounds cell reports wall 1 with the other five channels 0;
an in-bounds empty cell reports its food flag and no agent; an in-bounds cell
occupied by another agent reports the food flag, agent flag 1 and the
occupant's color; and the acting agent's own (center) cell never reports an
agent present. -/
theorem get_input_spec (w : World) (id : AgentId) (a : Agent)
    (ha : lookupAgent id w.agents = some a)
    (hx : a.pos.x < WIDTH) (hy : a.pos.y < HEIGHT)
    (hself : w.grid a.pos = some id) :
    (w.get_input id).length = INPUT_SIZE ∧
      (∀ i j, i < 7 → j < 7 →
        ((w.get_input id).drop (6 * (7 * i + j))).take 6 =
          w.inputCell id a.pos ((i : Int) - 3, (j : Int) - 3)) ∧
      (∀ (i j : Nat), i < 7 → j < 7 →
        ((a.pos.x : Int) + ((j : Int) - 3) < 0 ∨ (a.pos.y : Int) + ((i : Int) - 3) < 0 ∨
          (a.pos.x : Int) + ((j : Int) - 3) ≥ (WIDTH : Int) ∨
          (a.pos.y : Int) + ((i : Int) - 3) ≥ (HEIGHT : Int)) →
        ((w.get_input id).drop (6 * (7 * i + j))).take 6 = [1, 0, 0, 0, 0, 0]) ∧
      (∀ (i j : Nat), i < 7 → j < 7 →
        ¬ ((a.pos.x : Int) + ((j : Int) - 3) < 0 ∨ (a.pos.y : Int) + ((i : Int) - 3) < 0 ∨
          (a.pos.x : Int) + ((j : Int) - 3) ≥ (WIDTH : Int) ∨
          (a.pos.y : Int) + ((i : Int) - 3) ≥ (HEIGHT : Int)) →
        w.grid ⟨((a.pos.x : Int) + ((j : Int) - 3)).toNat,
            ((a.pos.y : Int) + ((i : Int) - 3)).toNat⟩ = none →
        ((w.get_input id).drop (6 * (7 * i + j))).take 6 =
          [0, if w.foods ⟨((a.pos.x : Int) + ((j : Int) - 3)).toNat,
            ((a.pos.y : Int) + ((i : Int) - 3)).toNat⟩ then 1 else 0, 0, 0, 0, 0]) ∧
      (∀ (i j : Nat) (tid : AgentId) (tg : Agent), i < 7 → j < 7 →
        ¬ ((a.pos.x : Int) + ((j : Int) - 3) < 0 ∨ (a.pos.y : Int) + ((i : Int) - 3) < 0 ∨
          (a.pos.x : Int) + ((j : Int) - 3) ≥ (WIDTH : Int) ∨
          (a.pos.y : Int) + ((i : Int) - 3) ≥ (HEIGHT : Int)) →
        w.grid ⟨((a.pos.x : Int) + ((j : Int) - 3)).toNat,
            ((a.pos.y : Int) + ((i : Int) - 3)).toNat⟩ = some tid →
        tid ≠ id → lookupAgent tid w.agents = some tg →
        ((w.get_input id).drop (6 * (7 * i + j))).take 6 =
          [0, if w.foods ⟨((a.pos.x : Int) + ((j : Int) - 3)).toNat,
            ((a.pos.y : Int) + ((i : Int) - 3)).toNat⟩ then 1 else 0, 1,
            tg.color.r, tg.color.g, tg.color.b]) ∧
      ((w.get_input id).drop (6 * (7 * 3 + 3))).take 6 =
        [0, if w.foods a.pos then 1 else 0, 0, 0, 0, 0] := by
  have hgi : w.get_input id = inputOffsets.flatMap (fun d => w.inputCell id a.pos d) := by
    simp only [World.get_input, ha]
  have hlen6 : ∀ d ∈ inputOffsets, ((fun d => w.inputCell id a.pos d) d).length = 6 :=
    fun d _ => inputCell_length w id a.pos d
  have hslice : ∀ i j, i < 7 → j < 7 →
      ((w.get_input id).drop (6 * (7 * i + j))).take 6 =
        w.inputCell id a.pos ((i : Int) - 3, (j : Int) - 3) := by
    intro i j hi hj
    rw [hgi]
    exact flatMap_slice inputOffsets _ 6 hlen6 (7 * i + j) _ (inputOffsets_getElem? i j hi hj)
  refine ⟨?_, hslice, ?_, ?_, ?_, ?_⟩
  · rw [hgi, length_flatMap_const _ _ 6 hlen6,
      show inputOffsets.length = 49 from by decide]
    decide
  · intro i j hi hj hw
    rw [hslice i j hi hj]
    simp only [World.inputCell]
    rw [if_pos hw]
  · intro i j hi hj hnw hg
    rw [hslice i j hi hj]
    simp only [World.inputCell]
    rw [if_neg hnw]
    simp only [hg]
  · intro i j tid tg hi hj hnw hg htid hlt
    rw [hslice i j hi hj]
    simp only [World.inputCell]
    rw [if_neg hnw]
    simp only [hg, if_pos htid, hlt]
  · have h33 := hslice 3 3 (by norm_num) (by norm_num)
    rw [show ((3 : Nat) : Int) - 3 = 0 from by norm_num] at h33
    rw [h33]
    simp only [World.inputCell]
    have hnw : ¬ ((a.pos.x : Int) + 0 < 0 ∨ (a.pos.y : Int) + 0 < 0 ∨
        (a.pos.x : Int) + 0 ≥ (WIDTH : Int) ∨ (a.pos.y : Int) + 0 ≥ (HEIGHT : Int)) := by
      push_neg
      refine ⟨by omega, by omega, ?_, ?_⟩
      · have : (a.pos.x : Int) < (WIDTH : Int) := by exact_mod_cast hx
        omega
      · have : (a.pos.y : Int) < (HEIGHT : Int) := by exact_mod_cast hy
        omega
    rw [if_neg hnw]
    have hnp : (⟨((a.pos.x : Int) + 0).toNat, ((a.pos.y : Int) + 0).toNat⟩ : Position) =
        a.pos := by
      have h1 : ((a.pos.x : Int) + 0).toNat = a.pos.x := by omega
      have h2 : ((a.pos.y : Int) + 0).toNat = a.pos.y := by omega
      rw [h1, h2]
    rw [hnp, hself]
    simp

/-- Witness for `get_input_spec`: the corner agent of `thresholdWorld` has a
294-entry perception vector whose first cell (offset `(-3, -3)`, out of
bounds) reports wall 1 and zeros. -/
theorem get_input_spec_witness :
    (thresholdWorld.get_input 0).length = INPUT_SIZE ∧
      ((thresholdWorld.get_input 0).drop (6 * (7 * 0 + 0))).take 6 =
        [1, 0, 0, 0, 0, 0] :=
  ⟨(get_input_spec thresholdWorld 0 thresholdAgent rfl (by decide) (by decide)
      (by decide)).1,
    (get_input_spec thresholdWorld 0 thresholdAgent rfl (by decide) (by decide)
      (by decide)).2.2.1 0 0 (by decide) (by decide) (by decide)⟩

/-! ### Grid and registry consistency (for C4) -/

/-- The internal world invariant: registry keys are unique and below the
identifier allocator, every live agent's position cell stores exactly its
identifier, and every occupied cell points back to a live agent standing
there. -/
def World.Inv (w : World) : Prop :=
  (w.agents.map Prod.fst).Nodup ∧
  (∀ i a2, lookupAgent i w.agents = some a2 → i < w.next_id) ∧
  (∀ i a2, lookupAgent i w.agents = some a2 → w.grid a2.pos = some i) ∧
  (∀ p i, w.grid p = some i → ∃ a2, lookupAgent i w.agents = some a2 ∧ a2.pos = p)

/-- The invariant only depends on the registry, the grid and the allocator. -/
theorem Inv_congr (w w2 : World) (hag : w2.agents = w.agents) (hg : w2.grid = w.grid)
    (hn : w2.next_id = w.next_id) (h : w.Inv) : w2.Inv := by
  obtain ⟨h1, h2, h3, h4⟩ := h
  exact ⟨hag ▸ h1, fun i a2 hl => hn ▸ h2 i a2 (hag ▸ hl),
    fun i a2 hl => hg ▸ h3 i a2 (hag ▸ hl),
    fun p i hp => by
      obtain ⟨a2, hl, hpos⟩ := h4 p i (hg ▸ hp)
      exact ⟨a2, hag ▸ hl, hpos⟩⟩

theorem lookup_updateEntries (id j : AgentId) (f : Agent → Agent)
    (l : List (AgentId × Agent)) :
    lookupAgent j (updateEntries id f l) =
      if j = id then (lookupAgent j l).map f else lookupAgent j l := by
  induction l with
  | nil => simp [updateEntries, lookupAgent]
  | cons p rest ih =>
    rcases p with ⟨k, b⟩
    by_cases hk : k = id
    · rw [updateEntries_cons_eq id f k b rest hk]
      by_cases hj : k = j
      · have hji : j = id := hj.symm.trans hk
        simp only [lookupAgent, if_pos hj, if_pos hji]
        rfl
      · simp only [lookupAgent, if_neg hj]
        exact ih
    · rw [updateEntries_cons_ne id f k b rest hk]
      by_cases hj : k = j
      · have hji : ¬ j = id := fun h => hk (hj.trans h)
        simp only [lookupAgent, if_pos hj, if_neg hji]
      · simp only [lookupAgent, if_neg hj]
        exact ih

theorem updateEntries_keys (id : AgentId) (f : Agent → Agent)
    (l : List (AgentId × Agent)) :
    (updateEntries id f l).map Prod.fst = l.map Prod.fst := by
  induction l with
  | nil => rfl
  | cons p rest ih =>
    rcases p with ⟨k, b⟩
    by_cases hk : k = id
    · rw [updateEntries_cons_eq id f k b rest hk]
      simp [ih]
    · rw [updateEntries_cons_ne id f k b rest hk]
      simp [ih]

/-- A point update whose function keeps the position (and any world sharing
grid and allocator with the base) preserves the invariant. -/
theorem Inv_updateEntries (w w2 : World) (id : AgentId) (f : Agent → Agent)
    (hf : ∀ a2, (f a2).pos = a2.pos)
    (hag : w2.agents = updateEntries id f w.agents) (hg : w2.grid = w.grid)
    (hn : w2.next_id = w.next_id) (h : w.Inv) : w2.Inv := by
  obtain ⟨h1, h2, h3, h4⟩ := h
  refine ⟨?_, ?_, ?_, ?_⟩
  · rw [hag, updateEntries_keys]
    exact h1
  · intro i a2 hl
    rw [hag, lookup_updateEntries] at hl
    rw [hn]
    by_cases hi : i = id
    · rw [if_pos hi] at hl
      rcases hb : lookupAgent i w.agents with _ | b
      · rw [hb] at hl
        simp at hl
      · exact h2 i b hb
    · rw [if_neg hi] at hl
      exact h2 i a2 hl
  · intro i a2 hl
    rw [hag, lookup_updateEntries] at hl
    rw [hg]
    by_cases hi : i = id
    · rw [if_pos hi] at hl
      rcases hb : lookupAgent i w.agents with _ | b
      · rw [hb] at hl
        simp at hl
      · rw [hb] at hl
        injection hl with hl
        rw [← hl, hf]
        exact h3 i b hb
    · rw [if_neg hi] at hl
      exact h3 i a2 hl
  · intro p i hp
    rw [hg] at hp
    obtain ⟨b, hb, hpos⟩ := h4 p i hp
    rw [hag, lookup_updateEntries]
    by_cases hi : i = id
    · rw [if_pos hi, hb]
      exact ⟨f b, rfl, by rw [hf]; exact hpos⟩
    · rw [if_neg hi]
      exact ⟨b, hb, hpos⟩

theorem lookup_filter_ne (id j : AgentId) (l : List (AgentId × Agent)) :
    lookupAgent j (l.filter (fun p => p.1 ≠ id)) =
      if j = id then none else lookupAgent j l := by
  induction l with
  | nil => simp [lookupAgent]
  | cons p rest ih =>
    rcases p with ⟨k, b⟩
    by_cases hk : k = id
    · rw [show List.filter (fun p => decide (p.1 ≠ id)) ((k, b) :: rest) =
          List.filter (fun p => decide (p.1 ≠ id)) rest from by simp [hk]]
      rw [ih]
      by_cases hj : j = id
      · rw [if_pos hj, if_pos hj]
      · rw [if_neg hj, if_neg hj]
        have hkj : ¬ k = j := fun h => hj (by rw [← h, hk])
        simp [lookupAgent, hkj]
    · rw [show List.filter (fun p => decide (p.1 ≠ id)) ((k, b) :: rest) =
          (k, b) :: List.filter (fun p => decide (p.1 ≠ id)) rest from by simp [hk]]
      by_cases hj : k = j
      · have hji : ¬ j = id := fun h => hk (hj.trans h)
        simp [lookupAgent, hj, hji]
      · simp only [lookupAgent, if_neg hj]
        exact ih

theorem Inv_remove_agent (w : World) (id : AgentId) (h : w.Inv) :
    (w.remove_agent id).Inv := by
  obtain ⟨h1, h2, h3, h4⟩ := h
  unfold World.remove_agent
  rcases ha : lookupAgent id w.agents with _ | a
  · exact ⟨h1, h2, h3, h4⟩
  · refine ⟨?_, ?_, ?_, ?_⟩
    · have hsub : (w.agents.filter (fun p => p.1 ≠ id)).map Prod.fst |>.Sublist
          (w.agents.map Prod.fst) := (List.filter_sublist _).map Prod.fst
      exact h1.sublist hsub
    · intro i a2 hl
      rw [lookup_filter_ne] at hl
      by_cases hi : i = id
      · rw [if_pos hi] at hl
        simp at hl
      · rw [if_neg hi] at hl
        exact h2 i a2 hl
    · intro i a2 hl
      rw [lookup_filter_ne] at hl
      by_cases hi : i = id
      · rw [if_pos hi] at hl
        simp at hl
      · rw [if_neg hi] at hl
        have hgr := h3 i a2 hl
        have hga := h3 id a ha
        have hne2 : a2.pos ≠ a.pos := by
          intro hpp
          rw [hpp, hga] at hgr
          injection hgr with hgr
          exact hi hgr.symm
        simp only [if_neg hne2]
        exact hgr
    · intro p i hp
      simp only [] at hp
      by_cases hpa : p = a.pos
      · rw [if_pos hpa] at hp
        simp at hp
      · rw [if_neg hpa] at hp
        obtain ⟨b, hb, hpos⟩ := h4 p i hp
        have hi : ¬ i = id := by
          intro hii
          rw [hii, ha] at hb
          injection hb with hb
          exact hpa (by rw [hb]; exact hpos.symm)
        refine ⟨b, ?_, hpos⟩
        rw [lookup_filter_ne, if_neg hi]
        exact hb

theorem Inv_add_agent (w : World) (b : Agent) (pos : Position) (h : w.Inv)
    (hkey : b.id ∉ w.agents.map Prod.fst) (hlt : b.id < w.next_id)
    (hgrid : w.grid pos = none) (hpos : b.pos = pos) :
    (w.add_agent b pos).Inv := by
  obtain ⟨h1, h2, h3, h4⟩ := h
  have hlooknone : lookupAgent b.id w.agents = none :=
    lookup_eq_none_of_not_mem_keys _ _ hkey
  refine ⟨?_, ?_, ?_, ?_⟩
  · show ((w.agents ++ [(b.id, b)]).map Prod.fst).Nodup
    rw [List.map_append]
    rw [List.nodup_append]
    refine ⟨h1, by simp, ?_⟩
    intro x hx
    simp only [List.map_cons, List.map_nil, List.mem_singleton]
    intro hxb
    rw [hxb] at hx
    exact hkey hx
  · intro i a2 hl
    show i < w.next_id
    rw [show (w.add_agent b pos).agents = w.agents ++ [(b.id, b)] from rfl,
      lookup_append] at hl
    rcases hli : lookupAgent i w.agents with _ | c
    · rw [hli] at hl
      simp only [lookupAgent] at hl
      by_cases hib : b.id = i
      · rw [← hib]
        exact hlt
      · rw [if_neg hib] at hl
        simp [lookupAgent] at hl
    · rw [hli] at hl
      exact h2 i c hli
  · intro i a2 hl
    show (fun p => if p = pos then some b.id else w.grid p) a2.pos = some i
    simp only []
    rw [show (w.add_agent b pos).agents = w.agents ++ [(b.id, b)] from rfl,
      lookup_append] at hl
    rcases hli : lookupAgent i w.agents with _ | c
    · rw [hli] at hl
      simp only [lookupAgent] at hl
      by_cases hib : b.id = i
      · rw [if_pos hib] at hl
        injection hl with hl
        rw [← hl, hpos, if_pos rfl, hib]
      · rw [if_neg hib] at hl
        simp [lookupAgent] at hl
    · rw [hli] at hl
      injection hl with hl
      rw [← hl]
      have hgr := h3 i c hli
      have hne2 : c.pos ≠ pos := by
        intro hpp
        rw [hpp, hgrid] at hgr
        exact Option.noConfusion hgr
      rw [if_neg hne2]
      exact hgr
  · intro p i hp
    rw [show (w.add_agent b pos).grid =
      (fun q => if q = pos then some b.id else w.grid q) from rfl] at hp
    simp only [] at hp
    rw [show (w.add_agent b pos).agents = w.agents ++ [(b.id, b)] from rfl]
    by_cases hpp : p = pos
    · rw [if_pos hpp] at hp
      injection hp with hp
      refine ⟨b, ?_, by rw [hpos, hpp]⟩
      rw [← hp, lookup_append, hlooknone]
      simp [lookupAgent]
    · rw [if_neg hpp] at hp
      obtain ⟨c, hc, hcpos⟩ := h4 p i hp
      refine ⟨c, ?_, hcpos⟩
      rw [lookup_append, hc]

theorem freeSpots_grid (w : World) (c : Position) :
    ∀ p ∈ w.freeSpots c, w.grid p = none := by
  have haux : ∀ (L : List (Int × Int)) (acc : List Position),
      (∀ p ∈ acc, w.grid p = none) →
      ∀ p ∈ L.foldl (fun acc d =>
        if d.2 = 0 ∧ d.1 = 0 then acc
        else
          match cellAt c d with
          | none => acc
          | some q => if w.grid q = none then acc ++ [q] else acc) acc,
        w.grid p = none := by
    intro L
    induction L with
    | nil => intro acc hacc p hp; exact hacc p hp
    | cons d L ih =>
      intro acc hacc p hp
      rw [List.foldl_cons] at hp
      refine ih _ ?_ p hp
      by_cases h0 : d.2 = 0 ∧ d.1 = 0
      · rw [if_pos h0]
        exact hacc
      · rw [if_neg h0]
        rcases hc : cellAt c d with _ | q
        · exact hacc
        · show ∀ p2 ∈ (if w.grid q = none then acc ++ [q] else acc), w.grid p2 = none
          by_cases hq : w.grid q = none
          · rw [if_pos hq]
            intro p2 hp2
            rcases List.mem_append.mp hp2 with hm | hm
            · exact hacc p2 hm
            · rw [List.mem_singleton.mp hm]
              exact hq
          · rw [if_neg hq]
            exact hacc
  intro p hp
  exact haux interactOffsets [] (by simp) p hp


theorem exists_lookup_of_mem_keys (i : AgentId) (l : List (AgentId × Agent))
    (hm : i ∈ l.map Prod.fst) : ∃ a, lookupAgent i l = some a := by
  induction l with
  | nil => simp at hm
  | cons p rest ih =>
    rcases p with ⟨k, b⟩
    by_cases hk : k = i
    · exact ⟨b, by simp [lookupAgent, hk]⟩
    · have hm2 : i ∈ rest.map Prod.fst := by
        simp only [List.map_cons, List.mem_cons] at hm
        rcases hm with hm | hm
        · exact absurd hm.symm hk
        · exact hm
      obtain ⟨a, hla⟩ := ih hm2
      refine ⟨a, ?_⟩
      simp only [lookupAgent, if_neg hk]
      exact hla

/-- The allocator value is never a live key. -/
theorem next_id_fresh (w : World) (h : w.Inv) : w.next_id ∉ w.agents.map Prod.fst := by
  intro hm
  obtain ⟨a, hla⟩ := exists_lookup_of_mem_keys _ _ hm
  exact absurd (h.2.1 _ _ hla) (lt_irrefl _)

/-- The invariant survives any growth of the allocator. -/
theorem Inv_mono (w w2 : World) (hag : w2.agents = w.agents) (hg : w2.grid = w.grid)
    (hn : w.next_id ≤ w2.next_id) (h : w.Inv) : w2.Inv := by
  obtain ⟨h1, h2, h3, h4⟩ := h
  refine ⟨hag ▸ h1, fun i a2 hl => lt_of_lt_of_le (h2 i a2 (hag ▸ hl)) hn,
    fun i a2 hl => hg ▸ h3 i a2 (hag ▸ hl), fun p i hp => ?_⟩
  obtain ⟨a2, hl, hpos⟩ := h4 p i (hg ▸ hp)
  exact ⟨a2, hag ▸ hl, hpos⟩

/-- A point update that keeps every position preserves the invariant. -/
theorem Inv_updateAgent (w : World) (id : AgentId) (f : Agent → Agent)
    (hf : ∀ a2, (f a2).pos = a2.pos) (h : w.Inv) : (w.updateAgent id f).Inv :=
  Inv_updateEntries w (w.updateAgent id f) id f hf rfl rfl rfl h

/-- One combat step preserves the invariant: every branch is the identity or a
point update keeping positions. -/
theorem Inv_interactStep (w : World) (id : AgentId) (eff : Int) (c : Position)
    (d : Int × Int) (h : w.Inv) : (w.interactStep id eff c d).Inv := by
  unfold World.interactStep
  split
  · exact h
  · split
    · exact h
    · split
      · exact h
      · split
        · exact h
        · split
          · exact Inv_updateAgent _ _ _ (fun a2 => rfl)
              (Inv_updateAgent _ _ _ (fun a2 => rfl) h)
          · exact Inv_updateAgent _ _ _ (fun a2 => rfl) h

theorem Inv_foldl_interactStep (id : AgentId) (eff : Int) (c : Position)
    (L : List (Int × Int)) :
    ∀ v : World, v.Inv → (L.foldl (fun w d => w.interactStep id eff c d) v).Inv := by
  induction L with
  | nil => intro v hv; exact hv
  | cons d L ih =>
    intro v hv
    rw [List.foldl_cons]
    exact ih _ (Inv_interactStep v id eff c d hv)

/-- `interact_area` preserves the invariant. -/
theorem Inv_interact_area (w : World) (id : AgentId) (eff : Int) (h : w.Inv) :
    (w.interact_area id eff).Inv := by
  unfold World.interact_area
  split
  · exact h
  · exact Inv_foldl_interactStep id eff _ interactOffsets _
      (Inv_updateAgent _ _ _ (fun a2 => rfl) h)

theorem move_agent_next_id (w : World) (id : AgentId) (action : Action) :
    (w.move_agent id action).next_id = w.next_id := by
  unfold World.move_agent
  split
  · rfl
  · simp only []
    split
    · rfl
    · split
      · split
        · rfl
        · rfl
      · rfl

/-- The core of a successful move: the mover keeps its identifier, gets the
new position `np`, its old cell is cleared and the vacant target cell is
claimed.  The invariant is preserved. -/
theorem Inv_move_core (w : World) (id : AgentId) (b : Agent) (np : Position)
    (f : Agent → Agent) (hfp : ∀ a2, (f a2).pos = np)
    (hb : lookupAgent id w.agents = some b) (hnp : w.grid np = none)
    (h : w.Inv) (w2 : World)
    (hag : w2.agents = updateEntries id f w.agents)
    (hg : w2.grid = fun p =>
      if p = np then some id else if p = b.pos then none else w.grid p)
    (hn : w2.next_id = w.next_id) : w2.Inv := by
  obtain ⟨h1, h2, h3, h4⟩ := h
  refine ⟨?_, ?_, ?_, ?_⟩
  · rw [hag, updateEntries_keys]
    exact h1
  · intro i a2 hl
    rw [hag, lookup_updateEntries] at hl
    rw [hn]
    by_cases hi : i = id
    · rw [if_pos hi] at hl
      rcases hc : lookupAgent i w.agents with _ | c
      · rw [hc] at hl
        simp at hl
      · exact h2 i c hc
    · rw [if_neg hi] at hl
      exact h2 i a2 hl
  · intro i a2 hl
    rw [hag, lookup_updateEntries] at hl
    rw [hg]
    simp only []
    by_cases hi : i = id
    · rw [if_pos hi, hi, hb] at hl
      rw [Option.map_some'] at hl
      injection hl with hl
      rw [← hl, hfp b, if_pos rfl, hi]
    · rw [if_neg hi] at hl
      have hgr := h3 i a2 hl
      have hpn : a2.pos ≠ np := by
        intro hpp
        rw [hpp, hnp] at hgr
        exact Option.noConfusion hgr
      have hpb : a2.pos ≠ b.pos := by
        intro hpp
        have hgb := h3 id b hb
        rw [hpp, hgb] at hgr
        injection hgr with hgr
        exact hi hgr.symm
      rw [if_neg hpn, if_neg hpb]
      exact hgr
  · intro p i hp
    rw [hg] at hp
    simp only [] at hp
    by_cases hpn : p = np
    · rw [if_pos hpn] at hp
      injection hp with hp
      refine ⟨f b, ?_, by rw [hfp b, hpn]⟩
      rw [hag, lookup_updateEntries, ← hp, if_pos rfl, hb]
      rfl
    · rw [if_neg hpn] at hp
      by_cases hpb : p = b.pos
      · rw [if_pos hpb] at hp
        exact absurd hp (by simp)
      · rw [if_neg hpb] at hp
        obtain ⟨c, hc, hcpos⟩ := h4 p i hp
        have hi : ¬ i = id := by
          intro hii
          rw [hii, hb] at hc
          injection hc with hc
          exact hpb (by rw [← hcpos, ← hc])
        refine ⟨c, ?_, hcpos⟩
        rw [hag, lookup_updateEntries, if_neg hi]
        exact hc

/-- `move_agent` preserves the invariant. -/
theorem Inv_move_agent (w : World) (id : AgentId) (action : Action) (h : w.Inv) :
    (w.move_agent id action).Inv := by
  rcases ha : lookupAgent id w.agents with _ | a
  · rw [show w.move_agent id action = w from by unfold World.move_agent; rw [ha]]
    exact h
  · have spec := move_agent_spec w id a action ha
    have hnid := move_agent_next_id w id action
    by_cases hwall : ((a.pos.x : Int) + (moveOffset action).1 < 0 ∨
        (a.pos.y : Int) + (moveOffset action).2 < 0 ∨
        (a.pos.x : Int) + (moveOffset action).1 ≥ (WIDTH : Int) ∨
        (a.pos.y : Int) + (moveOffset action).2 ≥ (HEIGHT : Int))
    · obtain ⟨hag, hg, _⟩ := spec.1 hwall
      exact Inv_updateEntries w _ id moveCostUpd (fun a2 => rfl) hag hg hnid h
    · by_cases hfree : w.grid ⟨((a.pos.x : Int) + (moveOffset action).1).toNat,
          ((a.pos.y : Int) + (moveOffset action).2).toNat⟩ = none
      · have hfr := (spec.2 hwall).2 hfree
        rcases hfd : w.foods ⟨((a.pos.x : Int) + (moveOffset action).1).toNat,
            ((a.pos.y : Int) + (moveOffset action).2).toNat⟩
        · obtain ⟨hag, _⟩ := hfr.2.1 hfd
          refine Inv_move_core w id a _ _ ?_ ha hfree h _ hag hfr.1 hnid
          intro a2
          rfl
        · obtain ⟨hag, _⟩ := hfr.2.2 hfd
          refine Inv_move_core w id a _ _ ?_ ha hfree h _ hag hfr.1 hnid
          intro a2
          rfl
      · obtain ⟨hag, hg, _⟩ := (spec.2 hwall).1 hfree
        exact Inv_updateEntries w _ id moveCostUpd (fun a2 => rfl) hag hg hnid h

/-- `apply_action` preserves the invariant: the color/cost write keeps the
position, and each dispatch target preserves it. -/
theorem Inv_apply_action (w : World) (id : AgentId) (action : Action) (ncol : Color)
    (h : w.Inv) : (w.apply_action id action ncol).Inv := by
  unfold World.apply_action
  split
  · exact h
  · have h1 : (w.updateAgent id
        (fun a => { a with color := ncol, energy := a.energy - 1 })).Inv :=
      Inv_updateAgent _ _ _ (fun a2 => rfl) h
    cases action
    · exact Inv_move_agent _ _ _ h1
    · exact Inv_move_agent _ _ _ h1
    · exact Inv_move_agent _ _ _ h1
    · exact Inv_move_agent _ _ _ h1
    · exact h1
    · exact Inv_interact_area _ _ _ h1
    · exact Inv_interact_area _ _ _ h1


theorem new_child_id (parent : Agent) (nid : AgentId) (np : Position) (r : Rng) :
    (parent.new_child nid np r).1.id = nid := rfl

theorem new_child_pos (parent : Agent) (nid : AgentId) (np : Position) (r : Rng) :
    (parent.new_child nid np r).1.pos = np := rfl

/-- Reduction of `try_reproduce` in the birth case: cost update, allocator
bump, rng advance, and the child registered on the drawn free cell. -/
theorem try_reproduce_birth_eq (w : World) (id : AgentId) (a : Agent) (cp : Position)
    (ha : lookupAgent id w.agents = some a) (hcan : a.energy ≥ a.max_energy)
    (hne : (w.freeSpots a.pos).isEmpty = false)
    (hget : (w.freeSpots a.pos).get?
      ((w.rng.stream w.rng.pos) % (w.freeSpots a.pos).length) = some cp) :
    w.try_reproduce id =
      World.add_agent
        { step := w.step, agents := updateEntries id reproduceCostUpd w.agents,
          grid := w.grid, foods := w.foods,
          rng := ((reproduceCostUpd a).new_child w.next_id cp
            { stream := w.rng.stream, pos := w.rng.pos + 1 }).2,
          next_id := w.next_id + 1 }
        ((reproduceCostUpd a).new_child w.next_id cp
          { stream := w.rng.stream, pos := w.rng.pos + 1 }).1
        cp := by
  have hfold : (fun p : Agent => { p with energy := p.energy - REPRODUCE_COST }) =
      reproduceCostUpd := rfl
  have hup2 : lookupAgent id (w.updateAgent id reproduceCostUpd).agents =
      some (reproduceCostUpd a) := by
    rw [lookup_updateAgent_self, ha]
    rfl
  simp only [World.try_reproduce, ha, hcan, if_true, hfold, freeSpots_updateAgent,
    updateAgent_rng, updateAgent_next_id, Rng.randRange, Rng.next, hne,
    Bool.false_eq_true, if_false, hget, hup2]
  rfl

/-- `try_reproduce` preserves the invariant: the cost update keeps positions,
and the child is registered under the fresh allocator value on a cell the
free-spot scan certified vacant. -/
theorem Inv_try_reproduce (w : World) (id : AgentId) (h : w.Inv) :
    (w.try_reproduce id).Inv := by
  rcases ha : lookupAgent id w.agents with _ | a
  · rw [show w.try_reproduce id = w from by unfold World.try_reproduce; rw [ha]]
    exact h
  · by_cases hcan : a.energy ≥ a.max_energy
    · by_cases hsp : w.freeSpots a.pos = []
      · have hfold : (fun p : Agent => { p with energy := p.energy - REPRODUCE_COST }) =
            reproduceCostUpd := rfl
        have hred : w.try_reproduce id = w.updateAgent id reproduceCostUpd := by
          simp only [World.try_reproduce, ha, hcan, if_true, hfold, freeSpots_updateAgent,
            hsp, List.isEmpty_nil, if_true]
        rw [hred]
        exact Inv_updateAgent _ _ _ (fun a2 => rfl) h
      · have hne : (w.freeSpots a.pos).isEmpty = false := List.isEmpty_eq_false.mpr hsp
        have hlenpos : 0 < (w.freeSpots a.pos).length := List.length_pos.mpr hsp
        have hidx : (w.rng.stream w.rng.pos) % (w.freeSpots a.pos).length <
            (w.freeSpots a.pos).length := Nat.mod_lt _ hlenpos
        have hget : (w.freeSpots a.pos).get?
            ((w.rng.stream w.rng.pos) % (w.freeSpots a.pos).length) =
            some ((w.freeSpots a.pos)[(w.rng.stream w.rng.pos) %
              (w.freeSpots a.pos).length]) := by
          rw [List.get?_eq_getElem?]
          exact List.getElem?_eq_getElem hidx
        have hmem : (w.freeSpots a.pos)[(w.rng.stream w.rng.pos) %
            (w.freeSpots a.pos).length] ∈ w.freeSpots a.pos := List.getElem_mem _
        rw [try_reproduce_birth_eq w id a _ ha hcan hne hget]
        refine Inv_add_agent _ _ _ ?_ ?_ ?_ ?_ ?_
        · refine Inv_mono (w.updateAgent id reproduceCostUpd) _ rfl rfl ?_
            (Inv_updateAgent _ _ _ (fun a2 => rfl) h)
          exact Nat.le_succ _
        · rw [new_child_id]
          show w.next_id ∉ (updateEntries id reproduceCostUpd w.agents).map Prod.fst
          rw [updateEntries_keys]
          exact next_id_fresh w h
        · rw [new_child_id]
          exact Nat.lt_succ_self _
        · exact freeSpots_grid w a.pos _ hmem
        · exact new_child_pos _ _ _ _
    · have hred : w.try_reproduce id = w := by
        unfold World.try_reproduce
        rw [ha]
        simp only []
        rw [if_neg hcan]
      rw [hred]
      exact h

/-- One scheduled agent turn preserves the invariant: the bookkeeping update
(action record, aging, lifespan kill) keeps the position, and every dispatch
target preserves it. -/
theorem Inv_processTurn (brains : AgentId → List ℚ → List ℚ) (w : World)
    (id : AgentId) (h : w.Inv) : (w.processTurn brains id).Inv := by
  unfold World.processTurn
  split
  · exact h
  · refine Inv_try_reproduce _ _ (Inv_apply_action _ _ _ _
      (Inv_updateAgent _ _ _ ?_ h))
    intro a2
    dsimp only []
    split
    · rfl
    · rfl

theorem Inv_foldl_remove (l : List AgentId) :
    ∀ v : World, v.Inv → (l.foldl (fun w id => w.remove_agent id) v).Inv := by
  induction l with
  | nil => intro v hv; exact hv
  | cons x l ih =>
    intro v hv
    rw [List.foldl_cons]
    exact ih _ (Inv_remove_agent v x hv)

theorem Inv_foldl_processTurn (brains : AgentId → List ℚ → List ℚ)
    (l : List AgentId) :
    ∀ v : World, v.Inv → (l.foldl (fun w id => w.processTurn brains id) v).Inv := by
  induction l with
  | nil => intro v hv; exact hv
  | cons x l ih =>
    intro v hv
    rw [List.foldl_cons]
    exact ih _ (Inv_processTurn brains v x hv)

/-- A fold whose step never touches the registry, the grid or the allocator
preserves the invariant. -/
theorem Inv_foldl_of_step {α : Type} (g : World → α → World)
    (hg : ∀ v x, (g v x).agents = v.agents ∧ (g v x).grid = v.grid ∧
      (g v x).next_id = v.next_id) (L : List α) :
    ∀ v : World, v.Inv → (L.foldl g v).Inv := by
  induction L with
  | nil => intro v hv; exact hv
  | cons x l ih =>
    intro v hv
    rw [List.foldl_cons]
    exact ih _ (Inv_congr v (g v x) (hg v x).1 (hg v x).2.1 (hg v x).2.2 hv)

/-- One food-spawn attempt only touches the rng and the food mask. -/
theorem spawn_body_pres (v : World) (x : Nat) :
    (((fun (w : World) (_ : Nat) =>
      let (xv, rng) := w.rng.randRange WIDTH
      let (yv, rng) := rng.randRange HEIGHT
      let w := { w with rng := rng }
      if w.foods ⟨xv, yv⟩ then w
      else
        let (u, rng) := w.rng.randUnit
        let w := { w with rng := rng }
        if foodAccept u xv yv then
          { w with foods := fun p => if p = (⟨xv, yv⟩ : Position) then true else w.foods p }
        else w) v x).agents = v.agents ∧
      ((fun (w : World) (_ : Nat) =>
      let (xv, rng) := w.rng.randRange WIDTH
      let (yv, rng) := rng.randRange HEIGHT
      let w := { w with rng := rng }
      if w.foods ⟨xv, yv⟩ then w
      else
        let (u, rng) := w.rng.randUnit
        let w := { w with rng := rng }
        if foodAccept u xv yv then
          { w with foods := fun p => if p = (⟨xv, yv⟩ : Position) then true else w.foods p }
        else w) v x).grid = v.grid ∧
      ((fun (w : World) (_ : Nat) =>
      let (xv, rng) := w.rng.randRange WIDTH
      let (yv, rng) := rng.randRange HEIGHT
      let w := { w with rng := rng }
      if w.foods ⟨xv, yv⟩ then w
      else
        let (u, rng) := w.rng.randUnit
        let w := { w with rng := rng }
        if foodAccept u xv yv then
          { w with foods := fun p => if p = (⟨xv, yv⟩ : Position) then true else w.foods p }
        else w) v x).next_id = v.next_id) := by
  refine ⟨?_, ?_, ?_⟩ <;>
    (simp only [Rng.randRange, Rng.next, Rng.randUnit]
     split
     · rfl
     · split
       · rfl
       · rfl)

/-- `spawn_foods` preserves the invariant: it only touches the rng and the
food mask. -/
theorem Inv_spawn_foods (w : World) (h : w.Inv) : w.spawn_foods.Inv := by
  unfold World.spawn_foods
  split
  · exact h
  · exact Inv_foldl_of_step _ spawn_body_pres _ w h

/-- One full tick preserves the invariant. -/
theorem Inv_stepWorld (brains : AgentId → List ℚ → List ℚ) (w : World)
    (h : w.Inv) : (w.stepWorld brains).Inv := by
  unfold World.stepWorld
  exact Inv_foldl_processTurn brains _ _
    (Inv_spawn_foods _ (Inv_foldl_remove _ _ (Inv_congr w _ rfl rfl rfl h)))

/-- A fresh world satisfies the invariant. -/
theorem Inv_new (stream : Nat → Nat) : (World.new stream).Inv :=
  ⟨List.nodup_nil,
   fun i a2 hl => by simp [World.new, lookupAgent] at hl,
   fun i a2 hl => by simp [World.new, lookupAgent] at hl,
   fun p i hp => by simp [World.new] at hp⟩

theorem new_random_id (id : AgentId) (pos : Position) (r : Rng) :
    (Agent.new_random id pos r).1.id = id := rfl

theorem new_random_pos (id : AgentId) (pos : Position) (r : Rng) :
    (Agent.new_random id pos r).1.pos = pos := rfl

/-- A successful `add_new_agent` preserves the invariant: the cell was vacant
and the new agent carries the fresh allocator value and the target position. -/
theorem Inv_add_new_agent (w w2 : World) (pos : Position)
    (hw2 : w.add_new_agent pos = some w2) (h : w.Inv) : w2.Inv := by
  unfold World.add_new_agent at hw2
  by_cases hocc : (w.grid pos).isSome
  · rw [if_pos hocc] at hw2
    exact absurd hw2 (by simp)
  · rw [if_neg hocc] at hw2
    injection hw2 with hw2
    rw [← hw2]
    refine Inv_add_agent _ _ _ ?_ ?_ ?_ ?_ ?_
    · exact Inv_mono w _ rfl rfl (Nat.le_succ _) h
    · show w.next_id ∉ w.agents.map Prod.fst
      exact next_id_fresh w h
    · show w.next_id < w.next_id + 1
      exact Nat.lt_succ_self _
    · exact Option.not_isSome_iff_eq_none.mp hocc
    · rfl


/-- Worlds reachable by the public interface of `src/world.rs`: a fresh world
(`World::new` with any seed stream), a successful `add_new_agent`, and any
number of `step` calls with arbitrary brains. -/
inductive World.Reachable : World → Prop where
  | new (stream : Nat → Nat) : World.Reachable (World.new stream)
  | add (w w2 : World) (pos : Position) (hr : World.Reachable w)
      (hw2 : w.add_new_agent pos = some w2) : World.Reachable w2
  | step (w : World) (brains : AgentId → List ℚ → List ℚ)
      (hr : World.Reachable w) : World.Reachable (w.stepWorld brains)

/-- The mutual grid/registry consistency of the claim: every occupied cell
names a live agent standing exactly there, and every live agent's position
cell stores its identifier. -/
def World.gridConsistent (w : World) : Prop :=
  (∀ p i, w.grid p = some i → ∃ a, lookupAgent i w.agents = some a ∧ a.pos = p) ∧
  (∀ i a, lookupAgent i w.agents = some a → w.grid a.pos = some i)

/-- C4: every reachable world state (after `World::new`, `add_new_agent`, or
any number of `step` calls) keeps the grid and the agent registry mutually
consistent: a cell holding an identifier refers to a live agent whose position
equals that cell, and every live agent's position cell stores exactly its
identifier.  Every mutation (cull, move, attack, heal, reproduction,
placement) preserves this consistency. -/
theorem grid_agent_consistency (w : World) (h : w.Reachable) : w.gridConsistent := by
  have hInv : w.Inv := by
    induction h with
    | new stream => exact Inv_new stream
    | add w w2 pos hr hw2 ih => exact Inv_add_new_agent w w2 pos hw2 ih
    | step w brains hr ih => exact Inv_stepWorld brains w ih
  exact ⟨hInv.2.2.2, hInv.2.2.1⟩

/-- Witness for `grid_agent_consistency`: one tick of a fresh world is
reachable, so its grid and registry are consistent. -/
theorem grid_agent_consistency_witness :
    ((World.new zeroStream).stepWorld (fun _ _ => [])).gridConsistent :=
  grid_agent_consistency _
    (World.Reachable.step (World.new zeroStream) (fun _ _ => [])
      (World.Reachable.new zeroStream))

/-! ### Order dependence of `World::step` (for C1) -/

/-- Genesis-style agent 0 at the origin with energy 50. -/
def detAgentA : Agent :=
  { id := 0, pos := ⟨0, 0⟩, energy := 50, max_energy := 100, generation := 1,
    color := { r := 0, g := 0, b := 0 }, last_action := none, age := 0,
    lifespan := 600 }

/-- Genesis-style agent 1 beside it with the same energy 50. -/
def detAgentB : Agent :=
  { id := 1, pos := ⟨1, 0⟩, energy := 50, max_energy := 100, generation := 1,
    color := { r := 0, g := 0, b := 0 }, last_action := none, age := 0,
    lifespan := 600 }

/-- The shared grid of the two order fixtures. -/
def detGrid : Position → Option AgentId :=
  fun p => if p = (⟨0, 0⟩ : Position) then some 0
    else if p = (⟨1, 0⟩ : Position) then some 1 else none

/-- The two-agent world in one registry iteration order. -/
def detWorldAB : World :=
  { step := 0, agents := [(0, detAgentA), (1, detAgentB)], grid := detGrid,
    foods := fun _ => true, rng := { stream := oneStream, pos := 0 },
    next_id := 2 }

/-- The same world content in the other registry iteration order. -/
def detWorldBA : World :=
  { step := 0, agents := [(1, detAgentB), (0, detAgentA)], grid := detGrid,
    foods := fun _ => true, rng := { stream := oneStream, pos := 0 },
    next_id := 2 }

/-- Brains that always ask to move right. -/
def detBrains : AgentId → List ℚ → List ℚ :=
  fun _ _ => [0, 0, 0, 1, 0, 0, 0, 0, 0, 0]

/-- C1: the per-tick processing order is NOT a deterministic function of the
world state.  `World::step` collects the identifiers from `self.agents.keys()`
(`HashMap` iteration order, randomized per process) and the stable
`sort_by_key` keeps that order for equal energies, so two runs holding the
same agent set (same identifiers, positions, energies: the registries are
permutations of each other), the same grid, food mask, rng and allocator can
process equal-energy agents in different orders and diverge: one order ends
the tick with 3 agents and agent 0 at energy 48, the other with 4 agents and
agent 0 at energy 30. -/
theorem step_depends_on_registry_order :
    detWorldAB.agents.Perm detWorldBA.agents ∧
    detWorldAB.grid = detWorldBA.grid ∧
    detWorldAB.foods = detWorldBA.foods ∧
    detWorldAB.rng = detWorldBA.rng ∧
    detWorldAB.step = detWorldBA.step ∧
    detWorldAB.next_id = detWorldBA.next_id ∧
    (detWorldAB.stepWorld detBrains).agents.length = 3 ∧
    (detWorldBA.stepWorld detBrains).agents.length = 4 ∧
    (lookupAgent 0 (detWorldAB.stepWorld detBrains).agents).map (fun a => a.energy) =
      some 48 ∧
    (lookupAgent 0 (detWorldBA.stepWorld detBrains).agents).map (fun a => a.energy) =
      some 30 := by
  refine ⟨List.Perm.swap _ _ _, rfl, rfl, rfl, rfl, rfl, ?_, ?_, ?_, ?_⟩
  · decide
  · decide
  · decide
  · decide

end Rikulife
